import Mathlib

/-!
Verification of the `2log` daily-note logger.

The tool edits one section of a markdown document: it locates a header line,
parses bullet lines `- HH:mm message` inside the section, and supports
add / list / undo operations that keep the entries chronologically sorted.

The definitions below are a shallow embedding of the TypeScript source
(`2log.ts`).  File and console I/O is stripped: every operation takes the
document content as a string and returns the new content (or an error) in
`Except`; an `Except.error` result corresponds to the source throwing before
any write happens, so the file is left unchanged in exactly those cases.
The current wall-clock time is passed in as the `nowTime` parameter.
-/

namespace TwoLog

/-- Characters matched by the JavaScript regex class `\s` (ASCII whitespace,
NBSP, the Unicode space separators and line separators, BOM). -/
def isJsWhitespace (c : Char) : Bool :=
  c = ' ' || c = '\t' || c = '\n' || c = '\x0b' || c = '\x0c' || c = '\r' ||
  c = '\u00A0' || c = '\u1680' || (0x2000 ≤ c.val && c.val ≤ 0x200A) ||
  c = '\u2028' || c = '\u2029' || c = '\u202F' || c = '\u205F' ||
  c = '\u3000' || c = '\uFEFF'

/-- JavaScript line terminators: the characters the regex `.` does not match. -/
def isLineTerm (c : Char) : Bool :=
  c = '\n' || c = '\r' || c = '\u2028' || c = '\u2029'

/-- Numeric value of a digit string.  This models JS `parseInt`/`Number` on the
digit-only strings this program feeds them (`Number("") = 0` also agrees). -/
def digitsToNat (cs : List Char) : Nat :=
  cs.foldl (fun acc c => acc * 10 + (c.toNat - 48)) 0

/-- JS `String.prototype.trim`: strip leading and trailing whitespace. -/
def trimJs (s : String) : String :=
  String.mk (((s.data.dropWhile isJsWhitespace).reverse.dropWhile isJsWhitespace).reverse)

/-- JS `String.prototype.startsWith`. -/
def jsStartsWith (s p : String) : Bool :=
  decide (s.data.take p.data.length = p.data)

/-- JS `String.prototype.split` with a single-character separator. -/
def splitOnChar (sep : Char) : List Char → List (List Char)
  | [] => [[]]
  | c :: rest =>
    if c = sep then [] :: splitOnChar sep rest
    else
      match splitOnChar sep rest with
      | [] => [[c]]
      | chunk :: chunks => (c :: chunk) :: chunks

/-- `content.split('\n')` from the source. -/
def splitNl (content : String) : List String :=
  (splitOnChar '\n' content.data).map String.mk

/-- JS `Array.prototype.join`. -/
def joinWith (sep : String) : List String → String
  | [] => ""
  | [s] => s
  | s :: rest => s ++ sep ++ joinWith sep rest

/-- `lines.join('\n')` from the source. -/
def joinNl (lines : List String) : String := joinWith "\n" lines

/-- The `LoggerError` union type of the source. -/
inductive LoggerError
  | DIRECTORY_NOT_FOUND
  | HEADER_NOT_FOUND
  | FILE_WRITE_ERROR
  | INVALID_ARGUMENTS
  | INVALID_TIME_FORMAT
  | NO_ENTRIES_TO_UNDO
deriving DecidableEq, Repr

/-- `padZero` from the source (leading-zero padding of a number). -/
def padZero (num : Nat) (len : Nat) : String :=
  let s := toString num
  if s.length ≥ len then s else String.mk (List.replicate (len - s.length) '0') ++ s

/-- `validateTimeFormat` from the source: the regex
`^([0-1]?[0-9]|2[0-3]):[0-5][0-9]$`, unfolded over the two possible total
shapes (1-digit hour or 2-digit hour, always a 2-digit minute). -/
def validateTimeFormat (timeString : String) : Bool :=
  match timeString.data with
  | [h, ':', m1, m2] =>
    h.isDigit && (('0' ≤ m1 && m1 ≤ '5') && m2.isDigit)
  | [h1, h2, ':', m1, m2] =>
    (((h1 = '0' || h1 = '1') && h2.isDigit) || (h1 = '2' && ('0' ≤ h2 && h2 ≤ '3')))
      && (('0' ≤ m1 && m1 ≤ '5') && m2.isDigit)
  | _ => false

/-- JS `parseInt`, restricted to the leading digit run (exact for the
validated, digit-only fields `formatTime` receives). -/
def jsParseInt (s : String) : Nat := digitsToNat (s.data.takeWhile Char.isDigit)

/-- `formatTime` from the source: split at `:`, re-pad both fields to width 2. -/
def formatTime (timeString : String) : String :=
  let parts := (splitOnChar ':' timeString.data).map String.mk
  padZero (jsParseInt (parts.getD 0 "")) 2 ++ ":" ++ padZero (jsParseInt (parts.getD 1 "")) 2

/-- The `LogEntry` interface of the source. -/
structure LogEntry where
  time : String
  message : String
  raw : String
deriving DecidableEq, Repr

/-- Length of the leading run of `\s` characters. -/
def wsCount (cs : List Char) : Nat := (cs.takeWhile isJsWhitespace).length

/-- The time token `(\d{1,2}:\d{2})` of the bullet regex; returns the token
and the rest.  The regex's greedy 2-digit hour and its backtracking collapse
into a deterministic second-character case split: if the second character is a
colon the hour has 1 digit, if it is a digit the third character must be the
colon, and otherwise no reading matches. -/
def matchTime : List Char → Option (List Char × List Char)
  | d1 :: d2 :: rest3 =>
    if d1.isDigit then
      if d2 = ':' then
        match rest3 with
        | m1 :: m2 :: rest =>
          if m1.isDigit && m2.isDigit then some ([d1, ':', m1, m2], rest) else none
        | _ => none
      else if d2.isDigit then
        match rest3 with
        | c3 :: m1 :: m2 :: rest =>
          if c3 = ':' && (m1.isDigit && m2.isDigit) then
            some ([d1, d2, ':', m1, m2], rest)
          else none
        | _ => none
      else none
    else none
  | _ => none

/-- `parseLogEntry` from the source: the regex `^-\s+(\d{1,2}:\d{2})\s+(.+)$`.
The backtracking of the trailing `\s+(.+)$` is resolved in closed form: the
greedy `\s+` keeps the whole whitespace run unless that leaves nothing for
`(.+)`, in which case it gives back exactly one character; `(.+)` then has to
cover the rest of the line with no line terminator in it. -/
def parseLogEntry (line : String) : Option LogEntry :=
  match line.data with
  | '-' :: rest =>
    if wsCount rest = 0 then none
    else
      match matchTime (rest.drop (wsCount rest)) with
      | none => none
      | some (timeCs, rest2) =>
        if wsCount rest2 = 0 || rest2.length < 2 then none
        else
          if (rest2.drop (min (wsCount rest2) (rest2.length - 1))).all
              (fun c => !(isLineTerm c)) then
            some { time := String.mk timeCs,
                   message := String.mk (rest2.drop (min (wsCount rest2) (rest2.length - 1))),
                   raw := line }
          else none
  | _ => none

/-- Total minutes since midnight of a `H:mm`/`HH:mm` string, as computed inside
`compareTimeStrings` (split at `:`, convert the two fields with `Number`).
Entry time strings always contain a colon and digit-only fields, for which
`Number` agrees with `digitsToNat`. -/
def jsTimeMinutes (t : String) : Nat :=
  let parts := splitOnChar ':' t.data
  digitsToNat (parts.getD 0 []) * 60 + digitsToNat (parts.getD 1 [])

/-- `compareTimeStrings` from the source. -/
def compareTimeStrings (timeA timeB : String) : Int :=
  (jsTimeMinutes timeA : Int) - (jsTimeMinutes timeB : Int)

/-- The comparator `(a, b) => compareTimeStrings(a.time, b.time)` turned into
the "may precede" relation (`comparator ≤ 0`) realised by the sort. -/
def entryLE (a b : LogEntry) : Prop := compareTimeStrings a.time b.time ≤ 0

instance : DecidableRel entryLE := fun a b =>
  inferInstanceAs (Decidable (compareTimeStrings a.time b.time ≤ 0))

/-- `entries.sort((a, b) => compareTimeStrings(a.time, b.time))`: ECMAScript
`Array.prototype.sort` is stable, and a stable sort by a total preorder has a
unique result, so it is modelled by the stable `List.insertionSort`. -/
def sortEntries (entries : List LogEntry) : List LogEntry := entries.insertionSort entryLE

/-- The record returned by `findTodaySection`. -/
structure TodaySection where
  startIndex : Nat
  endIndex : Nat
  lines : List String
deriving DecidableEq, Repr

/-- First loop of `findTodaySection`: scan for the first line whose trimmed
content equals the header text; `i` is the index of the head of the list. -/
def findHeaderIdx (headerText : String) : Nat → List String → Option Nat
  | _, [] => none
  | i, l :: rest => if trimJs l = headerText then some i else findHeaderIdx headerText (i + 1) rest

/-- Second loop of `findTodaySection`: scan for the next line starting with
`## `, returning `dflt` (the document length) when there is none. -/
def findNextHeader (dflt : Nat) : Nat → List String → Nat
  | _, [] => dflt
  | i, l :: rest => if jsStartsWith l "## " then i else findNextHeader dflt (i + 1) rest

/-- `findTodaySection` from the source. -/
def findTodaySection (content headerText : String) : Except LoggerError TodaySection :=
  let lines := splitNl content
  match findHeaderIdx headerText 0 lines with
  | none => .error .HEADER_NOT_FOUND
  | some i => .ok ⟨i, findNextHeader lines.length (i + 1) (lines.drop (i + 1)), lines⟩

/-- `getTodayLogEntries` from the source: collect the parseable lines of the
section body (indices `startIndex + 1 … endIndex - 1`), then sort. -/
def getTodayLogEntries (content headerText : String) : Except LoggerError (List LogEntry) :=
  match findTodaySection content headerText with
  | .error e => .error e
  | .ok sec =>
    .ok (sortEntries (((sec.lines.take sec.endIndex).drop (sec.startIndex + 1)).filterMap parseLogEntry))

/-- The removal loop of `undoLastEntry`: scan `i` upward below `endIndex`,
splice out the first line equal to the target raw text, then stop.  The loop
runs for at most `endIndex - i` iterations, which is made the structural
recursion measure (`undoRemoveLoop_unfold` below recovers the loop shape). -/
def undoRemoveLoopAux (lines : List String) (target : String) : Nat → Nat → List String
  | 0, _ => lines
  | fuel + 1, i =>
    if lines.getD i "" = target then lines.eraseIdx i
    else undoRemoveLoopAux lines target fuel (i + 1)

def undoRemoveLoop (lines : List String) (target : String) (endIndex : Nat) (i : Nat) : List String :=
  undoRemoveLoopAux lines target (endIndex - i) i

theorem undoRemoveLoop_unfold (lines : List String) (target : String) (endIndex i : Nat) :
    undoRemoveLoop lines target endIndex i =
      if i < endIndex then
        if lines.getD i "" = target then lines.eraseIdx i
        else undoRemoveLoop lines target endIndex (i + 1)
      else lines := by
  unfold undoRemoveLoop
  rcases Nat.lt_or_ge i endIndex with h | h
  · rw [if_pos h, show endIndex - i = (endIndex - (i + 1)) + 1 by omega, undoRemoveLoopAux]
  · rw [if_neg (by omega), show endIndex - i = 0 by omega]
    rfl

/-- `undoLastEntry` from the source (file I/O stripped; the written content is
returned). -/
def undoLastEntry (content headerText : String) : Except LoggerError String :=
  match findTodaySection content headerText with
  | .error e => .error e
  | .ok sec =>
    match getTodayLogEntries content headerText with
    | .error e => .error e
    | .ok entries =>
      match entries.getLast? with
      | none => .error .NO_ENTRIES_TO_UNDO
      | some lastEntry =>
        .ok (joinNl (undoRemoveLoop sec.lines lastEntry.raw sec.endIndex (sec.startIndex + 1)))

/-- Timestamp resolution at the top of `addLogEntry`
(`if (customTime) { validate; format } else { getCurrentTime() }`; the empty
string is falsy in JS, so an empty override falls back to the clock, which is
the `nowTime` parameter here). -/
def resolveTimestamp (customTime : Option String) (nowTime : String) : Except LoggerError String :=
  if customTime.getD "" ≠ "" then
    if validateTimeFormat (customTime.getD "") then .ok (formatTime (customTime.getD ""))
    else .error .INVALID_TIME_FORMAT
  else .ok nowTime

/-- The deletion loop of `addLogEntry`: `i` runs from `endIndex - 1` down to
`startIndex + 1`, splicing out every line that parses as an entry.  Indices
below the current `i` are unaffected by each splice, so each iteration
examines the original line at `i`.  The loop runs for `i - startIndex`
iterations, made the structural recursion measure
(`removeEntriesLoop_unfold` below recovers the loop shape). -/
def removeEntriesLoopAux : Nat → Nat → List String → List String
  | 0, _, lines => lines
  | fuel + 1, i, lines =>
    removeEntriesLoopAux fuel (i - 1)
      (if (parseLogEntry (lines.getD i "")).isSome then lines.eraseIdx i else lines)

def removeEntriesLoop (startIndex : Nat) (i : Nat) (lines : List String) : List String :=
  removeEntriesLoopAux (i - startIndex) i lines

theorem removeEntriesLoop_unfold (startIndex i : Nat) (lines : List String) :
    removeEntriesLoop startIndex i lines =
      if i ≤ startIndex then lines
      else
        removeEntriesLoop startIndex (i - 1)
          (if (parseLogEntry (lines.getD i "")).isSome then lines.eraseIdx i else lines) := by
  unfold removeEntriesLoop
  rcases le_or_lt i startIndex with h | h
  · rw [if_pos h, show i - startIndex = 0 by omega]
    rfl
  · rw [if_neg (by omega), show i - startIndex = ((i - 1) - startIndex) + 1 by omega,
      removeEntriesLoopAux]

/-- The insertion loop of `addLogEntry`:
`allEntries.forEach((entry, index) => lines.splice(insertPosition + index, 0, entry.raw))`,
with `splice(p, 0, x)` written as `take p ++ x :: drop p`. -/
def insertEntriesLoop : Nat → List String → List String → List String
  | _, [], lines => lines
  | pos, raw :: raws, lines => insertEntriesLoop (pos + 1) raws (lines.take pos ++ raw :: lines.drop pos)

/-- `addLogEntry` from the source (file I/O stripped; the written content is
returned, existing-file path: the template branch belongs to the caller). -/
def addLogEntry (logMessage : String) (customTime : Option String) (nowTime : String)
    (content headerText : String) : Except LoggerError String :=
  match resolveTimestamp customTime nowTime with
  | .error e => .error e
  | .ok timestamp =>
    match findTodaySection content headerText with
    | .error e => .error e
    | .ok sec =>
      match getTodayLogEntries content headerText with
      | .error e => .error e
      | .ok existingEntries =>
        let newEntry : LogEntry :=
          { time := timestamp, message := logMessage, raw := "- " ++ timestamp ++ " " ++ logMessage }
        let allEntries := sortEntries (existingEntries ++ [newEntry])
        .ok (joinNl (insertEntriesLoop (sec.startIndex + 1) (allEntries.map LogEntry.raw)
          (removeEntriesLoop sec.startIndex (sec.endIndex - 1) sec.lines)))

/-- The `CommandArgs` interface of the source. -/
structure CommandArgs where
  message : Option String
  time : Option String
  list : Bool
  undo : Bool
  help : Bool
deriving DecidableEq, Repr

/-- The empty `CommandArgs` record `{}` the parse loop starts from. -/
def emptyArgs : CommandArgs :=
  { message := none, time := none, list := false, undo := false, help := false }

/-- The argument loop of `parseArguments`; `-t`/`--time` consumes the next
argument as its value and fails when there is none. -/
def parseArgsLoop : List String → CommandArgs → List String → Except LoggerError (CommandArgs × List String)
  | [], result, messageArgs => .ok (result, messageArgs)
  | arg :: rest, result, messageArgs =>
    if arg = "-h" || arg = "--help" then parseArgsLoop rest { result with help := true } messageArgs
    else if arg = "-l" || arg = "--list" then parseArgsLoop rest { result with list := true } messageArgs
    else if arg = "-u" || arg = "--undo" then parseArgsLoop rest { result with undo := true } messageArgs
    else if arg = "-t" || arg = "--time" then
      match rest with
      | v :: rest2 => parseArgsLoop rest2 { result with time := some v } messageArgs
      | [] => .error .INVALID_ARGUMENTS
    else if jsStartsWith arg "-" then .error .INVALID_ARGUMENTS
    else parseArgsLoop rest result (messageArgs ++ [arg])

/-- `parseArguments` from the source. -/
def parseArguments (args : List String) : Except LoggerError CommandArgs :=
  match parseArgsLoop args emptyArgs [] with
  | .error e => .error e
  | .ok (result, messageArgs) =>
    .ok (if messageArgs.length > 0 then { result with message := some (joinWith " " messageArgs) } else result)

/-- What `main` decides to do for a given argument vector. -/
inductive MainAction
  | doList
  | doHelp
  | doUndo
  | doAdd (message : String) (time : Option String)
  | fail (e : LoggerError)
deriving DecidableEq, Repr

/-- The dispatch logic of `main` (console output stripped).  JS truthiness of
`parsed.message` / `parsed.time`, under which the empty string counts as
absent, is modelled with `Option.getD "" ≠ ""`. -/
def mainDispatch (args : List String) : MainAction :=
  if args.length = 0 then .doList
  else
    match parseArguments args with
    | .error e => .fail e
    | .ok parsed =>
      if parsed.help then .doHelp
      else if parsed.list then .doList
      else if parsed.undo then .doUndo
      else if parsed.message.getD "" ≠ "" then .doAdd (parsed.message.getD "") parsed.time
      else if parsed.time.getD "" ≠ "" then .fail .INVALID_ARGUMENTS
      else .doList

/-! ### Derived views of a section (used to state the claims) -/

/-- The body of a section: the lines strictly between the header line and the
section end (the slice the source loops iterate over). -/
def sectionBody (sec : TodaySection) : List String :=
  (sec.lines.take sec.endIndex).drop (sec.startIndex + 1)

/-- The entries of the section body in order of appearance (before sorting). -/
def sectionScan (sec : TodaySection) : List LogEntry :=
  (sectionBody sec).filterMap parseLogEntry

/-- The raw lines of the section body that parse as entries. -/
def entryLinesOf (sec : TodaySection) : List String :=
  (sectionBody sec).filter (fun l => (parseLogEntry l).isSome)

/-- The sort key of an entry: total minutes since midnight of its time field. -/
def entryKey (a : LogEntry) : Nat := jsTimeMinutes a.time

/-! ### String and splitting lemmas -/

theorem mk_data (s : String) : String.mk s.data = s := rfl

theorem splitOnChar_ne_nil (sep : Char) (cs : List Char) : splitOnChar sep cs ≠ [] := by
  induction cs with
  | nil => simp [splitOnChar]
  | cons c rest ih =>
    simp only [splitOnChar]
    split
    · simp
    · cases h : splitOnChar sep rest <;> simp

theorem splitOnChar_chunks_sep_free (sep : Char) :
    ∀ (cs : List Char), ∀ chunk ∈ splitOnChar sep cs, sep ∉ chunk := by
  intro cs
  induction cs with
  | nil => intro chunk h; simp [splitOnChar] at h; simp [h]
  | cons c rest ih =>
    intro chunk h
    simp only [splitOnChar] at h
    by_cases hc : c = sep
    · simp only [if_pos hc, List.mem_cons] at h
      rcases h with h | h
      · simp [h]
      · exact ih chunk h
    · simp only [if_neg hc] at h
      rcases hrest : splitOnChar sep rest with _ | ⟨hd, tl⟩
      · exact absurd hrest (splitOnChar_ne_nil sep rest)
      · rw [hrest] at h
        rcases List.mem_cons.mp h with h | h
        · subst h
          intro hmem
          rcases List.mem_cons.mp hmem with h1 | h1
          · exact hc h1.symm
          · exact ih hd (by rw [hrest]; exact List.mem_cons_self hd tl) h1
        · exact ih chunk (by rw [hrest]; exact List.mem_cons_of_mem hd h)

theorem splitOnChar_of_not_mem (sep : Char) :
    ∀ (cs : List Char), sep ∉ cs → splitOnChar sep cs = [cs] := by
  intro cs
  induction cs with
  | nil => intro _; rfl
  | cons c rest ih =>
    intro h
    have hc : ¬ c = sep := fun hc => h (hc ▸ List.mem_cons_self c rest)
    have hrest : sep ∉ rest := fun hr => h (List.mem_cons_of_mem c hr)
    simp only [splitOnChar, if_neg hc, ih hrest]

theorem splitOnChar_append_sep (sep : Char) :
    ∀ (cs : List Char), sep ∉ cs → ∀ (ds : List Char),
      splitOnChar sep (cs ++ sep :: ds) = cs :: splitOnChar sep ds := by
  intro cs
  induction cs with
  | nil => intro _ ds; simp [splitOnChar]
  | cons c rest ih =>
    intro h ds
    have hc : ¬ c = sep := fun hc => h (hc ▸ List.mem_cons_self c rest)
    have hrest : sep ∉ rest := fun hr => h (List.mem_cons_of_mem c hr)
    rw [List.cons_append]
    simp only [splitOnChar, if_neg hc]
    rw [ih hrest ds]

theorem splitNl_no_newline (content : String) :
    ∀ l ∈ splitNl content, '\n' ∉ l.data := by
  intro l hl
  simp only [splitNl, List.mem_map] at hl
  obtain ⟨chunk, hchunk, rfl⟩ := hl
  exact splitOnChar_chunks_sep_free '\n' content.data chunk hchunk

theorem splitNl_joinNl : ∀ (ls : List String), ls ≠ [] → (∀ l ∈ ls, '\n' ∉ l.data) →
    splitNl (joinNl ls) = ls
  | [], h, _ => absurd rfl h
  | [s], _, hfree => by
    simp only [joinNl, joinWith, splitNl]
    rw [splitOnChar_of_not_mem '\n' s.data (hfree s (List.mem_singleton.mpr rfl))]
    simp [mk_data]
  | s :: s2 :: rest, _, hfree => by
    have hs : '\n' ∉ s.data := hfree s (List.mem_cons_self _ _)
    have ih := splitNl_joinNl (s2 :: rest) (by simp)
      (fun l hl => hfree l (List.mem_cons_of_mem s hl))
    simp only [joinNl, joinWith, splitNl] at ih ⊢
    rw [String.data_append, String.data_append]
    have hnl : ("\n" : String).data = ['\n'] := rfl
    rw [hnl, List.append_assoc, List.singleton_append]
    rw [splitOnChar_append_sep '\n' s.data hs]
    simp only [List.map_cons, mk_data, List.cons.injEq, true_and]
    exact ih

/-! ### Loop characterizations -/

theorem getD_eq_getElem_of_lt {α : Type} {l : List α} {i : Nat} (d : α) (h : i < l.length) :
    l.getD i d = l[i] := by
  simp [List.getD_eq_getElem?_getD, List.getElem?_eq_getElem h]

/-- The insertion loop splices the whole list of raw lines in at `pos`. -/
theorem insertEntriesLoop_eq : ∀ (raws : List String) (pos : Nat) (lines : List String),
    pos ≤ lines.length →
    insertEntriesLoop pos raws lines = lines.take pos ++ raws ++ lines.drop pos := by
  intro raws
  induction raws with
  | nil => intro pos lines _; simp [insertEntriesLoop]
  | cons r rs ih =>
    intro pos lines hpos
    have hlen : (lines.take pos).length = pos := List.length_take_of_le hpos
    rw [insertEntriesLoop, ih (pos + 1) _ (by simp; omega)]
    have htake : (lines.take pos ++ r :: lines.drop pos).take (pos + 1)
        = lines.take pos ++ [r] := by
      have : pos + 1 = (lines.take pos).length + 1 := by omega
      rw [this, List.take_append]
      simp
    have hdrop : (lines.take pos ++ r :: lines.drop pos).drop (pos + 1)
        = lines.drop pos := by
      have : pos + 1 = (lines.take pos).length + 1 := by omega
      rw [this, List.drop_append]
      simp
    rw [htake, hdrop]
    simp

/-- The deletion loop of `addLogEntry` keeps the prefix up to the header,
filters the parseable lines out of the body slice it scanned, and keeps the
tail from `i + 1` on. -/
theorem removeEntriesLoop_eq (s : Nat) : ∀ (i : Nat) (lines : List String),
    s ≤ i → i < lines.length →
    removeEntriesLoop s i lines =
      lines.take (s + 1)
        ++ ((lines.take (i + 1)).drop (s + 1)).filter (fun l => (parseLogEntry l).isNone)
        ++ lines.drop (i + 1) := by
  intro i
  induction i using Nat.strong_induction_on with
  | _ i ih =>
    intro lines hsi hlen
    by_cases his : i ≤ s
    · have : i = s := Nat.le_antisymm his hsi
      subst this
      rw [removeEntriesLoop_unfold, if_pos (Nat.le_refl i)]
      have : ((lines.take (i + 1)).drop (i + 1)) = [] := by
        simp [List.drop_eq_nil_iff]
      rw [this]
      simp
    · have his' : s < i := Nat.lt_of_not_le his
      have hi1 : i - 1 + 1 = i := by omega
      rw [removeEntriesLoop_unfold, if_neg (by omega)]
      have hx : lines.getD i "" = lines[i] := getD_eq_getElem_of_lt "" hlen
      have htakei : lines.take (i + 1) = lines.take i ++ [lines[i]] := by
        rw [List.take_succ]
        simp [List.getElem?_eq_getElem hlen]
      by_cases hp : (parseLogEntry (lines.getD i "")).isSome
      · -- the line at `i` is an entry and gets spliced out
        rw [if_pos hp]
        have herase : lines.eraseIdx i = lines.take i ++ lines.drop (i + 1) :=
          List.eraseIdx_eq_take_drop_succ lines i
        have hlen' : i - 1 < (lines.eraseIdx i).length := by
          rw [List.length_eraseIdx, if_pos hlen]; omega
        rw [ih (i - 1) (by omega) _ (by omega) hlen']
        have hlentake : (lines.take i).length = i := List.length_take_of_le (by omega)
        rw [hi1, herase]
        have e1 : (lines.take i ++ lines.drop (i + 1)).take (s + 1) = lines.take (s + 1) := by
          rw [List.take_append_of_le_length (by omega), List.take_take]
          simp [Nat.min_eq_left (by omega : s + 1 ≤ i)]
        have e2 : (lines.take i ++ lines.drop (i + 1)).take i = lines.take i := by
          rw [List.take_append_of_le_length (by omega), List.take_take]
          simp
        have e3 : (lines.take i ++ lines.drop (i + 1)).drop i = lines.drop (i + 1) :=
          List.drop_left' hlentake
        rw [e1, e2, e3, htakei]
        have e4 : (lines.take i ++ [lines[i]]).drop (s + 1)
            = (lines.take i).drop (s + 1) ++ [lines[i]] :=
          List.drop_append_of_le_length (by omega)
        rw [e4, List.filter_append]
        have : (parseLogEntry lines[i]).isNone = false := by
          rw [← hx]; simp_all [Option.isNone_iff_eq_none, Option.isSome_iff_ne_none]
        simp [this]
      · -- the line at `i` is not an entry and stays
        rw [if_neg hp]
        rw [ih (i - 1) (by omega) _ (by omega) (by omega)]
        rw [hi1, htakei]
        have e4 : (lines.take i ++ [lines[i]]).drop (s + 1)
            = (lines.take i).drop (s + 1) ++ [lines[i]] :=
          List.drop_append_of_le_length (by
            rw [List.length_take_of_le (by omega : i ≤ lines.length)]; omega)
        rw [e4, List.filter_append]
        have : (parseLogEntry lines[i]).isNone = true := by
          rw [← hx]; simp_all [Option.isNone_iff_eq_none, Option.isSome_iff_ne_none]
        simp only [this, List.filter_cons, List.filter_nil, if_pos]
        have e5 : lines.drop i = lines[i] :: lines.drop (i + 1) :=
          List.drop_eq_getElem_cons hlen
        rw [e5]
        simp

/-- The undo loop deletes exactly the first matching line at or after the
start of its scan. -/
theorem undoRemoveLoop_first (lines : List String) (target : String) (endIdx : Nat) :
    ∀ (i j : Nat), i ≤ j → j < endIdx → lines.getD j "" = target →
      (∀ k, i ≤ k → k < j → lines.getD k "" ≠ target) →
      undoRemoveLoop lines target endIdx i = lines.eraseIdx j := by
  intro i
  generalize hn : endIdx - i = n
  induction n generalizing i with
  | zero => intro j hij hj _ _; omega
  | succ n ihn =>
    intro j hij hj hmatch hfirst
    rw [undoRemoveLoop_unfold, if_pos (by omega)]
    by_cases hcur : lines.getD i "" = target
    · have : i = j := by
        by_contra hne
        exact hfirst i (Nat.le_refl i) (by omega) hcur
      rw [if_pos hcur, this]
    · rw [if_neg hcur]
      have hij' : i + 1 ≤ j := by
        rcases Nat.lt_or_ge i j with h | h
        · omega
        · exact absurd (Nat.le_antisymm hij h ▸ hmatch) hcur
      exact ihn (i + 1) (by omega) j hij' hj hmatch
        (fun k hk1 hk2 => hfirst k (by omega) hk2)

/-! ### Characterization of the section-locating loops -/

theorem findHeaderIdx_none_iff (h : String) :
    ∀ (ls : List String) (i : Nat),
      findHeaderIdx h i ls = none ↔ ∀ l ∈ ls, trimJs l ≠ h := by
  intro ls
  induction ls with
  | nil => intro i; simp [findHeaderIdx]
  | cons l rest ih =>
    intro i
    rw [findHeaderIdx]
    by_cases hl : trimJs l = h
    · simp [hl]
    · simp only [if_neg hl, ih (i + 1), List.mem_cons]
      constructor
      · rintro hr x (rfl | hx)
        · exact hl
        · exact hr x hx
      · intro hr x hx
        exact hr x (Or.inr hx)

theorem findHeaderIdx_shift (h : String) :
    ∀ (ls : List String) (i : Nat),
      findHeaderIdx h i ls = (findHeaderIdx h 0 ls).map (i + ·) := by
  intro ls
  induction ls with
  | nil => intro i; simp [findHeaderIdx]
  | cons l rest ih =>
    intro i
    rw [findHeaderIdx]
    by_cases hl : trimJs l = h
    · rw [if_pos hl]
      rw [show findHeaderIdx h 0 (l :: rest) = some 0 by rw [findHeaderIdx, if_pos hl]]
      simp
    · rw [if_neg hl]
      rw [show findHeaderIdx h 0 (l :: rest) = findHeaderIdx h 1 rest by
        rw [findHeaderIdx, if_neg hl]]
      rw [ih (i + 1), ih 1]
      cases findHeaderIdx h 0 rest
      · simp
      · simp
        omega

theorem findHeaderIdx_zero_some (h : String) :
    ∀ (ls : List String) (j : Nat), findHeaderIdx h 0 ls = some j →
      j < ls.length ∧ trimJs (ls.getD j "") = h ∧ ∀ k < j, trimJs (ls.getD k "") ≠ h := by
  intro ls
  induction ls with
  | nil => intro j hj; simp [findHeaderIdx] at hj
  | cons l rest ih =>
    intro j hj
    rw [findHeaderIdx] at hj
    by_cases hl : trimJs l = h
    · rw [if_pos hl] at hj
      injection hj with hj
      subst hj
      refine ⟨by simp, by simpa using hl, by omega⟩
    · rw [if_neg hl, findHeaderIdx_shift h rest 1] at hj
      rcases hrest : findHeaderIdx h 0 rest with _ | j'
      · rw [hrest] at hj; simp at hj
      · rw [hrest] at hj
        simp only [Option.map_some'] at hj
        injection hj with hj
        obtain ⟨h1, h2, h3⟩ := ih j' hrest
        subst hj
        refine ⟨by simp; omega, ?_, ?_⟩
        · rw [Nat.add_comm 1 j']
          simpa using h2
        · intro k hk
          cases k with
          | zero => simpa using hl
          | succ k' => simpa using h3 k' (by omega)

theorem findHeaderIdx_append_no_match (h : String) {xs : List String}
    (hxs : ∀ l ∈ xs, trimJs l ≠ h) :
    ∀ (ys : List String) (i : Nat),
      findHeaderIdx h i (xs ++ ys) = findHeaderIdx h (i + xs.length) ys := by
  induction xs with
  | nil => intro ys i; simp
  | cons x rest ih =>
    intro ys i
    have hx : ¬ trimJs x = h := hxs x (List.mem_cons_self _ _)
    rw [List.cons_append, findHeaderIdx, if_neg hx,
      ih (fun l hl => hxs l (List.mem_cons_of_mem x hl)) ys (i + 1)]
    congr 1
    simp
    omega

theorem findNextHeader_no_match {ls : List String}
    (hls : ∀ l ∈ ls, ¬ jsStartsWith l "## ") :
    ∀ (d i : Nat), findNextHeader d i ls = d := by
  induction ls with
  | nil => intro d i; rfl
  | cons l rest ih =>
    intro d i
    rw [findNextHeader, if_neg (by simpa using hls l (List.mem_cons_self _ _))]
    exact ih (fun l hl => hls l (List.mem_cons_of_mem _ hl)) d (i + 1)

theorem findNextHeader_append_no_match {xs : List String}
    (hxs : ∀ l ∈ xs, ¬ jsStartsWith l "## ") :
    ∀ (ys : List String) (d i : Nat),
      findNextHeader d i (xs ++ ys) = findNextHeader d (i + xs.length) ys := by
  induction xs with
  | nil => intro ys d i; simp
  | cons x rest ih =>
    intro ys d i
    rw [List.cons_append, findNextHeader,
      if_neg (by simpa using hxs x (List.mem_cons_self _ _)),
      ih (fun l hl => hxs l (List.mem_cons_of_mem x hl)) ys d (i + 1)]
    congr 1
    simp
    omega

/-- Total specification of the `## `-scanning loop: either it finds the first
matching offset `k` and returns `i + k`, or there is no match and it returns
the default. -/
theorem findNextHeader_spec :
    ∀ (ls : List String) (d i : Nat),
      (∃ k, k < ls.length ∧ findNextHeader d i ls = i + k ∧
        jsStartsWith (ls.getD k "") "## " ∧
        ∀ k' < k, ¬ jsStartsWith (ls.getD k' "") "## ") ∨
      ((∀ l ∈ ls, ¬ jsStartsWith l "## ") ∧ findNextHeader d i ls = d) := by
  intro ls
  induction ls with
  | nil => intro d i; right; exact ⟨by simp, rfl⟩
  | cons l rest ih =>
    intro d i
    by_cases hl : jsStartsWith l "## "
    · left
      exact ⟨0, by simp, by rw [findNextHeader, if_pos hl]; omega, by simpa using hl, by omega⟩
    · rcases ih d (i + 1) with ⟨k, hk1, hk2, hk3, hk4⟩ | ⟨h1, h2⟩
      · left
        refine ⟨k + 1, by simp; omega, ?_, by simpa using hk3, ?_⟩
        · rw [findNextHeader, if_neg hl, hk2]; omega
        · intro k' hk'
          cases k' with
          | zero => simpa using hl
          | succ k'' => simpa using hk4 k'' (by omega)
      · right
        constructor
        · intro x hx
          rcases List.mem_cons.mp hx with rfl | hx
          · exact hl
          · exact h1 x hx
        · rw [findNextHeader, if_neg hl]; exact h2

/-! ### Specification of `findTodaySection` -/

theorem findTodaySection_error (content headerText : String) :
    (∀ l ∈ splitNl content, trimJs l ≠ headerText) →
    findTodaySection content headerText = .error .HEADER_NOT_FOUND := by
  intro h
  rw [findTodaySection]
  rw [show findHeaderIdx headerText 0 (splitNl content) = none from
    (findHeaderIdx_none_iff headerText (splitNl content) 0).mpr h]

/-- Full first-order characterization of a successful `findTodaySection`:
the start index is the first line whose trimmed text equals the header, and
the end index is the first later `## `-line (or the document length). -/
theorem findTodaySection_ok_spec (content headerText : String) (sec : TodaySection)
    (h : findTodaySection content headerText = .ok sec) :
    sec.lines = splitNl content ∧
    sec.startIndex < sec.lines.length ∧
    trimJs (sec.lines.getD sec.startIndex "") = headerText ∧
    (∀ k < sec.startIndex, trimJs (sec.lines.getD k "") ≠ headerText) ∧
    sec.startIndex < sec.endIndex ∧ sec.endIndex ≤ sec.lines.length ∧
    (∀ j, sec.startIndex < j → j < sec.endIndex → ¬ jsStartsWith (sec.lines.getD j "") "## ") ∧
    (sec.endIndex = sec.lines.length ∨
      (sec.endIndex < sec.lines.length ∧ jsStartsWith (sec.lines.getD sec.endIndex "") "## ")) := by
  rw [findTodaySection] at h
  rcases hidx : findHeaderIdx headerText 0 (splitNl content) with _ | i
  · rw [hidx] at h; exact absurd h (by simp)
  · rw [hidx] at h
    injection h with h
    obtain ⟨hilen, himatch, hifirst⟩ := findHeaderIdx_zero_some headerText (splitNl content) i hidx
    subst h
    set lines := splitNl content with hlines
    refine ⟨rfl, hilen, himatch, hifirst, ?_⟩
    dsimp only
    rcases findNextHeader_spec (lines.drop (i + 1)) lines.length (i + 1) with
      ⟨k, hk1, hk2, hk3, hk4⟩ | ⟨h1, h2⟩
    · rw [hk2]
      have hklen : i + 1 + k < lines.length := by
        have := List.length_drop (i + 1) lines
        omega
      have hgetd : ∀ m, i + 1 + m < lines.length →
          (lines.drop (i + 1)).getD m "" = lines.getD (i + 1 + m) "" := by
        intro m hm
        have hm' : m < (lines.drop (i + 1)).length := by
          have := List.length_drop (i + 1) lines
          omega
        rw [getD_eq_getElem_of_lt "" hm', getD_eq_getElem_of_lt "" hm, List.getElem_drop]
      refine ⟨by omega, by omega, ?_, Or.inr ⟨hklen, ?_⟩⟩
      · intro j hj1 hj2
        have hj3 : j - (i + 1) < k := by omega
        have := hk4 (j - (i + 1)) hj3
        rw [hgetd (j - (i + 1)) (by omega)] at this
        have : ¬ jsStartsWith (lines.getD (i + 1 + (j - (i + 1))) "") "## " := this
        rwa [show i + 1 + (j - (i + 1)) = j by omega] at this
      · rw [← hgetd k (by omega)]
        exact hk3
    · rw [h2]
      refine ⟨by omega, Nat.le_refl _, ?_, Or.inl rfl⟩
      intro j hj1 hj2
      have hj3 : j < lines.length := hj2
      rw [getD_eq_getElem_of_lt "" hj3]
      have hlen2 : j - (i + 1) < (lines.drop (i + 1)).length := by
        have := List.length_drop (i + 1) lines
        omega
      have hjd : lines[j] = (lines.drop (i + 1))[j - (i + 1)] := by
        rw [List.getElem_drop]
        congr 1
        omega
      rw [hjd]
      exact h1 _ (List.getElem_mem _)

/-! ### The sort: order, permutation, stability -/

theorem entryLE_iff (a b : LogEntry) :
    entryLE a b ↔ entryKey a ≤ entryKey b := by
  simp only [entryLE, compareTimeStrings, entryKey]
  omega

instance : IsTrans LogEntry entryLE :=
  ⟨fun a b c hab hbc => by rw [entryLE_iff] at hab hbc ⊢; omega⟩

instance : IsTotal LogEntry entryLE :=
  ⟨fun a b => by rw [entryLE_iff a b, entryLE_iff b a]; omega⟩

theorem sortEntries_perm (l : List LogEntry) : List.Perm (sortEntries l) l :=
  List.perm_insertionSort entryLE l

theorem sortEntries_sorted (l : List LogEntry) :
    (sortEntries l).Pairwise (fun a b => entryKey a ≤ entryKey b) :=
  (List.sorted_insertionSort entryLE l).imp (fun h => (entryLE_iff _ _).mp h)

theorem sortEntries_of_sorted {l : List LogEntry}
    (h : l.Pairwise (fun a b => entryKey a ≤ entryKey b)) : sortEntries l = l :=
  List.Sorted.insertionSort_eq (h.imp (fun hk => (entryLE_iff _ _).mpr hk))

/-- Stability of the sort, phrased through filters: the sublist of entries
picked out by any predicate compatible with the order (a tie class, say) is
unchanged by sorting. -/
theorem sortEntries_filter_compat (l : List LogEntry) (p : LogEntry → Bool)
    (hp : ∀ a b, p a = true → p b = true → entryLE a b) :
    (sortEntries l).filter p = l.filter p := by
  have hpair : (l.filter p).Pairwise entryLE :=
    List.pairwise_of_forall_mem_list (fun a ha b hb =>
      hp a b (List.mem_filter.mp ha).2 (List.mem_filter.mp hb).2)
  have hsub : List.Sublist (l.filter p) (sortEntries l) :=
    List.sublist_insertionSort hpair (List.filter_sublist l)
  have hsub2 : List.Sublist (l.filter p) ((sortEntries l).filter p) := by
    have h1 := hsub.filter p
    have hpp : l.filter (fun a => p a && p a) = l.filter p :=
      List.filter_congr (fun a _ => by cases p a <;> simp)
    rwa [List.filter_filter, hpp] at h1
  have hperm : List.Perm ((sortEntries l).filter p) (l.filter p) :=
    (sortEntries_perm l).filter p
  exact (hsub2.eq_of_length hperm.length_eq.symm).symm

theorem filter_key_cons_of_eq (x : LogEntry) (t : List LogEntry) {k : Nat}
    (h : entryKey x = k) :
    (x :: t).filter (fun a => entryKey a == k) = x :: t.filter (fun a => entryKey a == k) := by
  simp [List.filter_cons, h]

theorem filter_key_cons_of_ne (x : LogEntry) (t : List LogEntry) {k : Nat}
    (h : entryKey x ≠ k) :
    (x :: t).filter (fun a => entryKey a == k) = t.filter (fun a => entryKey a == k) := by
  simp [List.filter_cons, h]

/-- A key-sorted list is determined by its key-filtered slices. -/
theorem sorted_eq_of_filter_eq :
    ∀ (l₁ l₂ : List LogEntry),
      l₁.Pairwise (fun a b => entryKey a ≤ entryKey b) →
      l₂.Pairwise (fun a b => entryKey a ≤ entryKey b) →
      (∀ k, l₁.filter (fun a => entryKey a == k) = l₂.filter (fun a => entryKey a == k)) →
      l₁ = l₂ := by
  intro l₁
  induction l₁ with
  | nil =>
    intro l₂ _ _ hf
    cases l₂ with
    | nil => rfl
    | cons b t₂ =>
      exfalso
      have hb := hf (entryKey b)
      rw [filter_key_cons_of_eq b t₂ rfl] at hb
      simp at hb
  | cons a t₁ ih =>
    intro l₂ h₁ h₂ hf
    cases l₂ with
    | nil =>
      exfalso
      have ha := hf (entryKey a)
      rw [filter_key_cons_of_eq a t₁ rfl] at ha
      simp at ha
    | cons b t₂ =>
      have keq : entryKey b = entryKey a := by
        by_contra hne
        have hfa := hf (entryKey a)
        have hfb := hf (entryKey b)
        rw [filter_key_cons_of_eq a t₁ rfl, filter_key_cons_of_ne b t₂ hne] at hfa
        rw [filter_key_cons_of_eq b t₂ rfl,
          filter_key_cons_of_ne a t₁ (fun hh => hne hh.symm)] at hfb
        have ha : a ∈ t₂ := by
          have hm : a ∈ t₂.filter (fun x => entryKey x == entryKey a) := by
            rw [← hfa]; exact List.mem_cons_self _ _
          exact (List.mem_filter.mp hm).1
        have hb : b ∈ t₁ := by
          have hm : b ∈ t₁.filter (fun x => entryKey x == entryKey b) := by
            rw [hfb]; exact List.mem_cons_self _ _
          exact (List.mem_filter.mp hm).1
        have h3 : entryKey b ≤ entryKey a := (List.pairwise_cons.mp h₂).1 a ha
        have h4 : entryKey a ≤ entryKey b := (List.pairwise_cons.mp h₁).1 b hb
        omega
      have hfa := hf (entryKey a)
      rw [filter_key_cons_of_eq a t₁ rfl, filter_key_cons_of_eq b t₂ keq] at hfa
      injection hfa with hab htail
      subst hab
      have htails : ∀ k, t₁.filter (fun x => entryKey x == k)
          = t₂.filter (fun x => entryKey x == k) := by
        intro k
        by_cases hk : entryKey a = k
        · subst hk; exact htail
        · have hthis := hf k
          rw [filter_key_cons_of_ne a t₁ hk, filter_key_cons_of_ne a t₂ hk] at hthis
          exact hthis
      rw [ih t₂ (List.pairwise_cons.mp h₁).2 (List.pairwise_cons.mp h₂).2 htails]

/-- Appending an entry whose key dominates the list sorts to the sorted list
with that entry last (this is where stability matters: among equal keys the
new entry, being last in the input, stays last). -/
theorem sortEntries_append_max {l : List LogEntry} {x : LogEntry}
    (hx : ∀ y ∈ l, entryKey y ≤ entryKey x) :
    sortEntries (l ++ [x]) = sortEntries l ++ [x] := by
  apply sorted_eq_of_filter_eq
  · exact sortEntries_sorted _
  · rw [List.pairwise_append]
    refine ⟨sortEntries_sorted l, List.pairwise_singleton _ _, ?_⟩
    intro a ha b hb
    rw [List.mem_singleton] at hb
    subst hb
    exact hx a ((sortEntries_perm l).mem_iff.mp ha)
  · intro k
    have hcompat : ∀ (a b : LogEntry), (entryKey a == k) = true → (entryKey b == k) = true →
        entryLE a b := by
      intro a b hpa hpb
      rw [beq_iff_eq] at hpa hpb
      rw [entryLE_iff]
      omega
    rw [sortEntries_filter_compat _ _ hcompat, List.filter_append, List.filter_append,
      sortEntries_filter_compat _ _ hcompat]

/-! ### Parsing facts -/

theorem parseLogEntry_raw {l : String} {en : LogEntry} (h : parseLogEntry l = some en) :
    en.raw = l := by
  unfold parseLogEntry at h
  repeat' split at h
  all_goals first
    | (injection h with h2; subst h2; rfl)
    | (exact absurd h (by simp))

theorem parseLogEntry_raw_roundtrip {l : String} {en : LogEntry}
    (h : parseLogEntry l = some en) : parseLogEntry en.raw = some en := by
  rw [parseLogEntry_raw h]
  exact h

theorem entryLines_map_raw (ls : List String) :
    (ls.filterMap parseLogEntry).map LogEntry.raw
      = ls.filter (fun l => (parseLogEntry l).isSome) := by
  induction ls with
  | nil => rfl
  | cons l rest ih =>
    rw [List.filterMap_cons, List.filter_cons]
    cases hp : parseLogEntry l with
    | none => simp [hp, ih]
    | some en => simp [hp, ih, parseLogEntry_raw hp]

/-! ### Closed forms of the two mutating operations -/

theorem getTodayLogEntries_ok {content headerText : String} {sec : TodaySection}
    (hsec : findTodaySection content headerText = .ok sec) :
    getTodayLogEntries content headerText = .ok (sortEntries (sectionScan sec)) := by
  simp only [getTodayLogEntries, hsec, sectionScan, sectionBody]

theorem entryLE_key_compat (k : Nat) :
    ∀ (a b : LogEntry), (entryKey a == k) = true → (entryKey b == k) = true →
      entryLE a b := by
  intro a b hpa hpb
  rw [beq_iff_eq] at hpa hpb
  rw [entryLE_iff]
  omega

/-- Sorting an already-sorted list with more entries appended is the same as
sorting the original input with them appended. -/
theorem sortEntries_idem_append (l xs : List LogEntry) :
    sortEntries (sortEntries l ++ xs) = sortEntries (l ++ xs) := by
  apply sorted_eq_of_filter_eq _ _ (sortEntries_sorted _) (sortEntries_sorted _)
  intro k
  rw [sortEntries_filter_compat _ _ (entryLE_key_compat k),
    sortEntries_filter_compat _ _ (entryLE_key_compat k),
    List.filter_append, List.filter_append,
    sortEntries_filter_compat _ _ (entryLE_key_compat k)]

theorem take_drop_splice (A B C R : List String) (n : Nat) (hA : A.length = n) :
    (A ++ B ++ C).take n ++ R ++ (A ++ B ++ C).drop n = A ++ R ++ B ++ C := by
  rw [List.append_assoc A B C, List.take_left' hA, List.drop_left' hA]
  simp [List.append_assoc]

/-- Composition of the two body-rewriting loops of `addLogEntry`. -/
theorem insert_after_remove (s e : Nat) (lines R : List String)
    (hs : s < lines.length) (hse : s < e) (he : e ≤ lines.length) :
    insertEntriesLoop (s + 1) R (removeEntriesLoop s (e - 1) lines) =
      lines.take (s + 1) ++ R
        ++ ((lines.take e).drop (s + 1)).filter (fun l => (parseLogEntry l).isNone)
        ++ lines.drop e := by
  have hremove := removeEntriesLoop_eq s (e - 1) lines (by omega) (by omega)
  rw [show e - 1 + 1 = e by omega] at hremove
  rw [hremove]
  have hlen1 : (lines.take (s + 1)).length = s + 1 := List.length_take_of_le (by omega)
  rw [insertEntriesLoop_eq R (s + 1) _ (by simp only [List.length_append, hlen1]; omega)]
  rw [take_drop_splice _ _ _ _ _ hlen1]

/-- What `addLogEntry` writes, in closed form: the prefix up to and including
the header line, then all entries (old plus new) sorted, then the non-entry
body lines, then the tail of the document from the section end on. -/
theorem addLogEntry_eq (logMessage : String) (customTime : Option String) (nowTime : String)
    (content headerText : String) (sec : TodaySection) (timestamp : String)
    (hsec : findTodaySection content headerText = .ok sec)
    (hts : resolveTimestamp customTime nowTime = .ok timestamp) :
    addLogEntry logMessage customTime nowTime content headerText =
      .ok (joinNl (sec.lines.take (sec.startIndex + 1)
        ++ (sortEntries (sectionScan sec
              ++ [⟨timestamp, logMessage, "- " ++ timestamp ++ " " ++ logMessage⟩])).map LogEntry.raw
        ++ (sectionBody sec).filter (fun l => (parseLogEntry l).isNone)
        ++ sec.lines.drop sec.endIndex)) := by
  obtain ⟨-, hslen, -, -, hse, helen, -, -⟩ :=
    findTodaySection_ok_spec content headerText sec hsec
  simp only [addLogEntry, hts, hsec, getTodayLogEntries_ok hsec]
  rw [sortEntries_idem_append]
  rw [insert_after_remove sec.startIndex sec.endIndex sec.lines _ hslen hse helen]
  simp only [sectionScan, sectionBody]

/-- What `undoLastEntry` writes, in closed form: it deletes exactly the first
section-body line whose text is the raw line of the sorted list's last entry. -/
theorem undoLastEntry_eq (content headerText : String) (sec : TodaySection)
    (hsec : findTodaySection content headerText = .ok sec)
    (hne : sortEntries (sectionScan sec) ≠ []) :
    ∃ j, sec.startIndex + 1 ≤ j ∧ j < sec.endIndex ∧
      sec.lines.getD j "" = ((sortEntries (sectionScan sec)).getLast hne).raw ∧
      (∀ k, sec.startIndex + 1 ≤ k → k < j →
        sec.lines.getD k "" ≠ ((sortEntries (sectionScan sec)).getLast hne).raw) ∧
      undoLastEntry content headerText = .ok (joinNl (sec.lines.eraseIdx j)) := by
  obtain ⟨-, hslen, -, -, hse, helen, -, -⟩ :=
    findTodaySection_ok_spec content headerText sec hsec
  set lastEntry := (sortEntries (sectionScan sec)).getLast hne with hlast
  -- the last entry's raw text occurs in the section body
  have hmem : lastEntry ∈ sectionScan sec :=
    (sortEntries_perm (sectionScan sec)).mem_iff.mp (List.getLast_mem hne)
  obtain ⟨l, hl, hparse⟩ := List.mem_filterMap.mp hmem
  have hlraw : l = lastEntry.raw := (parseLogEntry_raw hparse).symm
  subst hlraw
  obtain ⟨m, hm, hmeq⟩ := List.mem_iff_getElem.mp hl
  have hbodylen : (sectionBody sec).length = sec.endIndex - (sec.startIndex + 1) := by
    simp only [sectionBody, List.length_drop, List.length_take]
    omega
  have hglobal : sec.lines.getD (sec.startIndex + 1 + m) "" = lastEntry.raw := by
    rw [getD_eq_getElem_of_lt "" (by omega)]
    rw [← hmeq]
    simp only [sectionBody]
    rw [List.getElem_drop, List.getElem_take]
  -- take the least matching body index
  have hex : ∃ k, sec.startIndex + 1 ≤ k ∧ k < sec.endIndex ∧
      sec.lines.getD k "" = lastEntry.raw :=
    ⟨sec.startIndex + 1 + m, by omega, by omega, hglobal⟩
  obtain ⟨hj1, hj2, hj3⟩ := Nat.find_spec hex
  refine ⟨Nat.find hex, hj1, hj2, hj3, ?_, ?_⟩
  · intro k hk1 hk2 hkeq
    exact Nat.find_min hex hk2 ⟨hk1, by omega, hkeq⟩
  · simp only [undoLastEntry, hsec, getTodayLogEntries_ok hsec]
    rw [List.getLast?_eq_getLast _ hne]
    dsimp only
    rw [undoRemoveLoop_first sec.lines lastEntry.raw sec.endIndex (sec.startIndex + 1)
      (Nat.find hex) hj1 hj2 hj3
      (fun k hk1 hk2 => fun hkeq => Nat.find_min hex hk2 ⟨hk1, by omega, hkeq⟩)]

/-! ### Character classes and the shape of accepted bullet lines -/

theorem not_ws_of_val (c : Char) (h1 : 48 ≤ c.val.toNat) (h2 : c.val.toNat ≤ 57) :
    isJsWhitespace c = false := by
  have hne : ∀ (d : Char), d.val.toNat ≠ c.val.toNat → ¬ (c = d) := by
    intro d hd hc
    exact hd (by rw [hc])
  simp only [isJsWhitespace, Bool.or_eq_false_iff, decide_eq_false_iff_not]
  have h8 : (0x2000 : UInt32).toNat = 8192 := by decide
  repeat' apply And.intro
  all_goals first
    | (intro hc
       rw [hc] at h1 h2
       first
        | exact absurd h1 (by decide)
        | exact absurd h2 (by decide))
    | (simp only [Bool.and_eq_false_iff]
       left
       simp only [decide_eq_false_iff_not]
       intro hle
       have hlen : (0x2000 : UInt32).toNat ≤ c.val.toNat := hle
       rw [h8] at hlen
       omega)

theorem isDigit_val {c : Char} (h : c.isDigit = true) :
    48 ≤ c.val.toNat ∧ c.val.toNat ≤ 57 := by
  simp only [Char.isDigit, Bool.and_eq_true, decide_eq_true_eq] at h
  exact ⟨h.1, h.2⟩

theorem digit_not_ws {c : Char} (h : c.isDigit = true) : isJsWhitespace c = false :=
  not_ws_of_val c (isDigit_val h).1 (isDigit_val h).2

theorem digit_not_term {c : Char} (h : c.isDigit = true) : isLineTerm c = false := by
  obtain ⟨h1, h2⟩ := isDigit_val h
  have hne : ∀ (d : Char), d.val.toNat ≠ c.val.toNat → ¬ (c = d) := by
    intro d hd hc
    exact hd (by rw [hc])
  simp only [isLineTerm, Bool.or_eq_false_iff, decide_eq_false_iff_not]
  repeat' apply And.intro
  all_goals (intro hc
             rw [hc] at h1 h2
             first
              | exact absurd h1 (by decide)
              | exact absurd h2 (by decide))

theorem digit_ne_colon {c : Char} (h : c.isDigit = true) : c ≠ ':' := by
  obtain ⟨h1, h2⟩ := isDigit_val h
  intro hc
  rw [hc] at h1 h2
  exact absurd h2 (by decide)

theorem colon_not_ws : isJsWhitespace ':' = false := by decide

theorem colon_not_term : isLineTerm ':' = false := by decide

theorem colon_ne_nl : (':' : Char) ≠ '\n' := by decide

theorem digit_ne_nl {c : Char} (h : c.isDigit = true) : c ≠ '\n' := by
  intro hc
  have := digit_not_term h
  rw [hc] at this
  simp [isLineTerm] at this

theorem not_term_ne_nl {c : Char} (h : isLineTerm c = false) : c ≠ '\n' := by
  intro hc
  rw [hc] at h
  simp [isLineTerm] at h

/-- Shape of the regex time token: a 1–2 digit hour, a colon, exactly 2
digits — with no restriction on the numeric ranges. -/
def isTimeToken (cs : List Char) : Bool :=
  match cs with
  | [d1, ':', m1, m2] => d1.isDigit && (m1.isDigit && m2.isDigit)
  | [d1, d2, ':', m1, m2] => d1.isDigit && (d2.isDigit && (m1.isDigit && m2.isDigit))
  | _ => false

theorem isTimeToken_shape {cs : List Char} (h : isTimeToken cs = true) :
    (∃ d1 m1 m2, cs = [d1, ':', m1, m2] ∧
      d1.isDigit = true ∧ m1.isDigit = true ∧ m2.isDigit = true) ∨
    (∃ d1 d2 m1 m2, cs = [d1, d2, ':', m1, m2] ∧
      d1.isDigit = true ∧ d2.isDigit = true ∧ m1.isDigit = true ∧ m2.isDigit = true) := by
  unfold isTimeToken at h
  split at h
  · rename_i d1 m1 m2
    simp only [Bool.and_eq_true] at h
    exact Or.inl ⟨d1, m1, m2, rfl, h.1, h.2.1, h.2.2⟩
  · rename_i d1 d2 m1 m2
    simp only [Bool.and_eq_true] at h
    exact Or.inr ⟨d1, d2, m1, m2, rfl, h.1, h.2.1, h.2.2.1, h.2.2.2⟩
  · exact absurd h (by simp)

theorem isTimeToken_chars {cs : List Char} (h : isTimeToken cs = true) :
    ∀ c ∈ cs, c.isDigit = true ∨ c = ':' := by
  rcases isTimeToken_shape h with ⟨d1, m1, m2, rfl, h1, h2, h3⟩ |
    ⟨d1, d2, m1, m2, rfl, h1, h2, h3, h4⟩
  · intro c hc
    simp only [List.mem_cons, List.not_mem_nil, or_false] at hc
    rcases hc with rfl | rfl | rfl | rfl
    · exact Or.inl h1
    · exact Or.inr rfl
    · exact Or.inl h2
    · exact Or.inl h3
  · intro c hc
    simp only [List.mem_cons, List.not_mem_nil, or_false] at hc
    rcases hc with rfl | rfl | rfl | rfl | rfl
    · exact Or.inl h1
    · exact Or.inl h2
    · exact Or.inr rfl
    · exact Or.inl h3
    · exact Or.inl h4

theorem matchTime_token {timeCs : List Char} (htok : isTimeToken timeCs = true)
    (rest : List Char) :
    matchTime (timeCs ++ rest) = some (timeCs, rest) := by
  rcases isTimeToken_shape htok with ⟨d1, m1, m2, rfl, h1, h2, h3⟩ |
    ⟨d1, d2, m1, m2, rfl, h1, h2, h3, h4⟩
  · simp [matchTime, h1, h2, h3]
  · simp [matchTime, h1, h2, h3, h4, digit_ne_colon h2]

theorem wsCount_nil : wsCount [] = 0 := rfl

theorem wsCount_cons_ws {c : Char} (h : isJsWhitespace c = true) (rest : List Char) :
    wsCount (c :: rest) = wsCount rest + 1 := by
  simp [wsCount, List.takeWhile_cons, h, Nat.add_comm]

theorem wsCount_cons_not {c : Char} (h : isJsWhitespace c = false) (rest : List Char) :
    wsCount (c :: rest) = 0 := by
  simp [wsCount, List.takeWhile_cons, h]

theorem wsCount_append_all {ws : List Char} (hws : ∀ c ∈ ws, isJsWhitespace c = true)
    (rest : List Char) : wsCount (ws ++ rest) = ws.length + wsCount rest := by
  induction ws with
  | nil => simp [wsCount_nil]
  | cons c t ih =>
    rw [List.cons_append, wsCount_cons_ws (hws c (List.mem_cons_self _ _))]
    rw [ih (fun c hc => hws c (List.mem_cons_of_mem _ hc))]
    simp
    omega

theorem wsCount_le_length (cs : List Char) : wsCount cs ≤ cs.length := by
  have := List.takeWhile_sublist (l := cs) isJsWhitespace
  simpa [wsCount] using this.length_le

/-- Any line of the bullet shape — dash, whitespace, time token, whitespace,
non-empty terminator-free remainder — is accepted by `parseLogEntry`, with the
raw field the whole line and the time field exactly the token. -/
theorem parseLogEntry_shape (ws1 timeCs ws2 msg : List Char)
    (hws1ne : ws1 ≠ []) (hws1 : ∀ c ∈ ws1, isJsWhitespace c = true)
    (htok : isTimeToken timeCs = true)
    (hws2ne : ws2 ≠ []) (hws2 : ∀ c ∈ ws2, isJsWhitespace c = true)
    (hmsgne : msg ≠ []) (hterm : ∀ c ∈ msg, isLineTerm c = false) :
    ∃ msgCs, msgCs ≠ [] ∧ (∀ c ∈ msgCs, c ∈ msg) ∧
      parseLogEntry (String.mk ('-' :: (ws1 ++ (timeCs ++ (ws2 ++ msg)))))
        = some ⟨String.mk timeCs, String.mk msgCs,
            String.mk ('-' :: (ws1 ++ (timeCs ++ (ws2 ++ msg))))⟩ := by
  have hts : isJsWhitespace ((timeCs ++ (ws2 ++ msg)).headD 'x') = false := by
    rcases isTimeToken_shape htok with ⟨d1, m1, m2, rfl, h1, -, -⟩ |
      ⟨d1, d2, m1, m2, rfl, h1, -, -, -⟩ <;> simpa using digit_not_ws h1
  have hwc1 : wsCount (ws1 ++ (timeCs ++ (ws2 ++ msg))) = ws1.length := by
    rw [wsCount_append_all hws1]
    rcases htl : timeCs ++ (ws2 ++ msg) with _ | ⟨c0, r0⟩
    · rcases isTimeToken_shape htok with ⟨d1, m1, m2, rfl, -⟩ | ⟨d1, d2, m1, m2, rfl, -⟩ <;>
        simp at htl
    · rw [htl] at hts
      simp only [List.headD_cons] at hts
      rw [wsCount_cons_not hts]
      omega
  have hdrop : (ws1 ++ (timeCs ++ (ws2 ++ msg))).drop ws1.length = timeCs ++ (ws2 ++ msg) :=
    List.drop_left' rfl
  -- the trailing run: rest2 = ws2 ++ msg
  have hlen2 : (ws2 ++ msg).length = ws2.length + msg.length := List.length_append _ _
  have hws2len : 1 ≤ ws2.length := List.length_pos.mpr hws2ne
  have hmsglen : 1 ≤ msg.length := List.length_pos.mpr hmsgne
  have hwc2 : ws2.length ≤ wsCount (ws2 ++ msg) := by
    rw [wsCount_append_all hws2]
    omega
  have hwc2' : wsCount (ws2 ++ msg) ≤ (ws2 ++ msg).length := wsCount_le_length _
  set j := min (wsCount (ws2 ++ msg)) ((ws2 ++ msg).length - 1) with hj
  have hjge : ws2.length ≤ j := by
    have := wsCount_append_all hws2 msg
    omega
  have hjlt : j < (ws2 ++ msg).length := by omega
  have hmsgCs : (ws2 ++ msg).drop j = msg.drop (j - ws2.length) := by
    rw [List.drop_append_eq_append_drop]
    rw [List.drop_eq_nil_iff.mpr (by omega)]
    simp
  have hsub : ∀ c ∈ (ws2 ++ msg).drop j, c ∈ msg := by
    intro c hc
    rw [hmsgCs] at hc
    exact (List.drop_subset _ _) hc
  refine ⟨(ws2 ++ msg).drop j, ?_, hsub, ?_⟩
  · intro hnil
    have := congrArg List.length hnil
    simp only [List.length_drop, List.length_nil] at this
    omega
  · have hne0 : ¬ (ws1.length = 0) := fun h0 => hws1ne (List.length_eq_zero.mp h0)
    have hcond : ¬ (wsCount (ws2 ++ msg) = 0 ∨ (ws2 ++ msg).length < 2) := by
      push_neg
      omega
    have hall : ((ws2 ++ msg).drop j).all (fun c => !(isLineTerm c)) = true := by
      rw [List.all_eq_true]
      intro c hc
      rw [hterm c (hsub c hc)]
      rfl
    show parseLogEntry _ = _
    unfold parseLogEntry
    simp only [hwc1, hdrop, matchTime_token htok, if_neg hne0, ← hj, hall, if_pos]
    rw [if_neg (by simpa using hcond)]

/-! ### Re-locating the section in a rewritten document -/

theorem parse_not_startsWith {l : String} {en : LogEntry} (h : parseLogEntry l = some en) :
    jsStartsWith l "## " = false := by
  obtain ⟨rest, hdata⟩ : ∃ rest, l.data = '-' :: rest := by
    unfold parseLogEntry at h
    split at h
    · exact ⟨_, by assumption⟩
    · exact absurd h (by simp)
  simp [jsStartsWith, hdata, List.take_succ_cons]

theorem filterMap_parse_of_isNone {ls : List String}
    (h : ∀ l ∈ ls, (parseLogEntry l).isNone = true) :
    ls.filterMap parseLogEntry = [] :=
  List.filterMap_eq_nil_iff.mpr (fun l hl => Option.isNone_iff_eq_none.mp (h l hl))

theorem filterMap_parse_map_raw (es : List LogEntry)
    (h : ∀ e ∈ es, parseLogEntry e.raw = some e) :
    (es.map LogEntry.raw).filterMap parseLogEntry = es := by
  induction es with
  | nil => rfl
  | cons e t ih =>
    rw [List.map_cons, List.filterMap_cons, h e (List.mem_cons_self _ _),
      ih (fun x hx => h x (List.mem_cons_of_mem _ hx))]

theorem getD_append_middle (A M C : List String) (j : Nat) (hj : j < M.length) :
    (A ++ M ++ C).getD (A.length + j) "" = M.getD j "" := by
  rw [getD_eq_getElem_of_lt "" (by simp only [List.length_append]; omega),
    getD_eq_getElem_of_lt "" hj]
  rw [List.getElem_append_left (by simp only [List.length_append]; omega)]
  rw [List.getElem_append_right (by omega)]
  congr 1
  omega

theorem eraseIdx_append_middle (A M C : List String) (j : Nat) (hj : j < M.length) :
    (A ++ M ++ C).eraseIdx (A.length + j) = A ++ M.eraseIdx j ++ C := by
  rw [List.eraseIdx_eq_take_drop_succ, List.eraseIdx_eq_take_drop_succ]
  have htake : (A ++ M ++ C).take (A.length + j) = A ++ M.take j := by
    rw [List.take_append_of_le_length (by simp only [List.length_append]; omega),
      List.take_append]
  have hdrop : (A ++ M ++ C).drop (A.length + j + 1) = M.drop (j + 1) ++ C := by
    rw [List.append_assoc, show A.length + j + 1 = A.length + (j + 1) by omega,
      List.drop_append, List.drop_append_of_le_length (by omega)]
  rw [htake, hdrop]
  simp [List.append_assoc]

/-- Locating the section in a document reassembled from a non-matching prefix,
the header line, a body with no `## ` lines, and a tail that is empty or
starts with a `## ` line. -/
theorem findTodaySection_reconstruct (headerText : String)
    (A0 M C : List String) (hline : String)
    (hA0 : ∀ l ∈ A0, trimJs l ≠ headerText)
    (hhl : trimJs hline = headerText)
    (hM : ∀ l ∈ M, ¬ jsStartsWith l "## ")
    (hC : C = [] ∨ ∃ c0 C2, C = c0 :: C2 ∧ jsStartsWith c0 "## ")
    (hfree : ∀ l ∈ (A0 ++ [hline]) ++ M ++ C, '\n' ∉ l.data) :
    findTodaySection (joinNl ((A0 ++ [hline]) ++ M ++ C)) headerText
      = .ok ⟨A0.length, A0.length + 1 + M.length, (A0 ++ [hline]) ++ M ++ C⟩ ∧
    sectionBody ⟨A0.length, A0.length + 1 + M.length, (A0 ++ [hline]) ++ M ++ C⟩ = M := by
  have hLne : (A0 ++ [hline]) ++ M ++ C ≠ [] := by simp
  have hsplit : splitNl (joinNl ((A0 ++ [hline]) ++ M ++ C)) = (A0 ++ [hline]) ++ M ++ C :=
    splitNl_joinNl _ hLne hfree
  have hidx : findHeaderIdx headerText 0 ((A0 ++ [hline]) ++ M ++ C) = some A0.length := by
    rw [List.append_assoc, List.append_assoc,
      findHeaderIdx_append_no_match headerText hA0, List.singleton_append,
      findHeaderIdx, if_pos hhl]
    simp
  have hlenA : (A0 ++ [hline]).length = A0.length + 1 := by simp
  have hdropA : ((A0 ++ [hline]) ++ M ++ C).drop (A0.length + 1) = M ++ C := by
    rw [List.append_assoc]
    exact List.drop_left' hlenA
  have hnext : findNextHeader ((A0 ++ [hline]) ++ M ++ C).length (A0.length + 1) (M ++ C)
      = A0.length + 1 + M.length := by
    rw [findNextHeader_append_no_match hM]
    rcases hC with rfl | ⟨c0, C2, rfl, hc0⟩
    · rw [findNextHeader]
      simp
      omega
    · rw [findNextHeader, if_pos hc0]
  constructor
  · rw [findTodaySection]
    simp only [hsplit, hidx, hdropA, hnext]
  · show (((A0 ++ [hline]) ++ M ++ C).take (A0.length + 1 + M.length)).drop (A0.length + 1) = M
    have htakee : ((A0 ++ [hline]) ++ M ++ C).take (A0.length + 1 + M.length)
        = (A0 ++ [hline]) ++ M := by
      rw [show (A0 ++ [hline]) ++ M ++ C = ((A0 ++ [hline]) ++ M) ++ C from by
        simp [List.append_assoc]]
      exact List.take_left' (by simp; omega)
    rw [htakee]
    exact List.drop_left' hlenA

/-! ### The last entry of a sorted list -/

theorem sorted_le_getLast :
    ∀ (l : List LogEntry), l.Pairwise (fun a b => entryKey a ≤ entryKey b) →
      ∀ (hne : l ≠ []) (x : LogEntry), x ∈ l → entryKey x ≤ entryKey (l.getLast hne) := by
  intro l
  induction l with
  | nil => intro _ hne; exact absurd rfl hne
  | cons a t ih =>
    intro hp hne x hx
    cases t with
    | nil =>
      rw [List.mem_singleton] at hx
      subst hx
      simp [List.getLast]
    | cons b t2 =>
      rw [List.getLast_cons (by simp)]
      rcases List.mem_cons.mp hx with rfl | hx2
      · have hmem := List.getLast_mem (l := b :: t2) (by simp)
        exact (List.pairwise_cons.mp hp).1 _ hmem
      · exact ih (List.pairwise_cons.mp hp).2 (by simp) x hx2

theorem filter_key_getLast :
    ∀ (l : List LogEntry), l.Pairwise (fun a b => entryKey a ≤ entryKey b) →
      ∀ (hne : l ≠ []),
      (l.filter (fun x => entryKey x == entryKey (l.getLast hne))).getLast? =
        some (l.getLast hne) := by
  intro l
  induction l with
  | nil => intro _ hne; exact absurd rfl hne
  | cons a t ih =>
    intro hp hne
    cases t with
    | nil => simp [List.getLast, List.filter]
    | cons b t2 =>
      have htne : (b :: t2) ≠ [] := by simp
      rw [List.getLast_cons htne, List.filter_cons]
      have htail := ih (List.pairwise_cons.mp hp).2 htne
      by_cases ha : (entryKey a == entryKey ((b :: t2).getLast htne)) = true
      · rw [if_pos ha]
        have hmemlast : (b :: t2).getLast htne ∈
            (b :: t2).filter (fun x => entryKey x == entryKey ((b :: t2).getLast htne)) :=
          List.mem_filter.mpr ⟨List.getLast_mem htne, by simp⟩
        have hne2 : (b :: t2).filter
            (fun x => entryKey x == entryKey ((b :: t2).getLast htne)) ≠ [] := by
          intro h0
          rw [h0] at hmemlast
          exact absurd hmemlast (List.not_mem_nil _)
        obtain ⟨y, L2, hL⟩ := List.exists_cons_of_ne_nil hne2
        rw [hL, List.getLast?_cons_cons, ← hL]
        exact htail
      · rw [if_neg ha]
        exact htail

/-! ### The claims -/

instance {ε α : Type} [DecidableEq ε] [DecidableEq α] : DecidableEq (Except ε α) := fun x y =>
  match x, y with
  | .ok a, .ok b =>
    if h : a = b then .isTrue (by rw [h])
    else .isFalse (by intro hc; injection hc; contradiction)
  | .error e, .error f =>
    if h : e = f then .isTrue (by rw [h])
    else .isFalse (by intro hc; injection hc; contradiction)
  | .ok _, .error _ => .isFalse (by intro hc; injection hc)
  | .error _, .ok _ => .isFalse (by intro hc; injection hc)

/-- C5: for every document and header string, `findTodaySection` fails with
HEADER_NOT_FOUND when no line's trimmed content equals the header, and
otherwise returns the index of the first such line, with the section end set
to the index of the first later line starting with `## `, or to the document
length when no such line exists. -/
theorem C5_locateSection (content headerText : String) :
    ((∀ l ∈ splitNl content, trimJs l ≠ headerText) →
      findTodaySection content headerText = .error .HEADER_NOT_FOUND) ∧
    (∀ sec, findTodaySection content headerText = .ok sec →
      sec.lines = splitNl content ∧
      sec.startIndex < sec.lines.length ∧
      trimJs (sec.lines.getD sec.startIndex "") = headerText ∧
      (∀ k < sec.startIndex, trimJs (sec.lines.getD k "") ≠ headerText) ∧
      sec.startIndex < sec.endIndex ∧ sec.endIndex ≤ sec.lines.length ∧
      (∀ j, sec.startIndex < j → j < sec.endIndex →
        ¬ jsStartsWith (sec.lines.getD j "") "## ") ∧
      (sec.endIndex = sec.lines.length ∨
        (sec.endIndex < sec.lines.length ∧
          jsStartsWith (sec.lines.getD sec.endIndex "") "## "))) :=
  ⟨findTodaySection_error content headerText,
   fun sec h => findTodaySection_ok_spec content headerText sec h⟩

/-- Witness for C5: a concrete document where the header is the third line
and the section is closed by a later `## ` line, and a concrete document with
no header line. -/
theorem C5_locateSection_witness :
    findTodaySection "# d\nno header here" "## Today" = .error .HEADER_NOT_FOUND ∧
    ((⟨2, 4, ["# d", "", "## Today", "x", "## Next"]⟩ : TodaySection).startIndex <
      (⟨2, 4, ["# d", "", "## Today", "x", "## Next"]⟩ : TodaySection).endIndex) :=
  ⟨(C5_locateSection "# d\nno header here" "## Today").1 (by decide),
   ((C5_locateSection "# d\n\n## Today\nx\n## Next" "## Today").2
      ⟨2, 4, ["# d", "", "## Today", "x", "## Next"]⟩ (by decide)).2.2.2.2.1⟩

/-- C7: when an operation fails, no content is produced (in the source the
error is thrown before any `writeFileSync`, so the file is unchanged): add,
list and undo all fail with HEADER_NOT_FOUND when no line of the document
trims to the header, and undo fails with NO_ENTRIES_TO_UNDO when the section
is found but no body line parses as an entry. -/
theorem C7_failed_operations_produce_no_content (content headerText : String) :
    ((∀ l ∈ splitNl content, trimJs l ≠ headerText) →
      (∀ msg customT nowT ts, resolveTimestamp customT nowT = .ok ts →
        addLogEntry msg customT nowT content headerText = .error .HEADER_NOT_FOUND) ∧
      getTodayLogEntries content headerText = .error .HEADER_NOT_FOUND ∧
      undoLastEntry content headerText = .error .HEADER_NOT_FOUND) ∧
    (∀ sec, findTodaySection content headerText = .ok sec →
      ((sectionBody sec).all (fun l => (parseLogEntry l).isNone)) = true →
      undoLastEntry content headerText = .error .NO_ENTRIES_TO_UNDO) := by
  constructor
  · intro hno
    have herr := findTodaySection_error content headerText hno
    refine ⟨?_, ?_, ?_⟩
    · intro msg customT nowT ts hts
      simp only [addLogEntry, hts, herr]
    · simp only [getTodayLogEntries, herr]
    · simp only [undoLastEntry, herr]
  · intro sec hsec hall
    have hscan : sectionScan sec = [] :=
      filterMap_parse_of_isNone (List.all_eq_true.mp hall)
    have hnil : sortEntries [] = [] := rfl
    simp only [undoLastEntry, hsec, getTodayLogEntries_ok hsec, hscan, hnil,
      List.getLast?_nil]

/-- Witness for C7: a missing header and an entry-free section on concrete
documents. -/
theorem C7_failed_operations_produce_no_content_witness :
    addLogEntry "hi" (some "9:30") "12:00" "# d\nplain text" "## Today"
      = .error .HEADER_NOT_FOUND ∧
    undoLastEntry "# d\n\n## Today\n\nprose only\n## Next" "## Today"
      = .error .NO_ENTRIES_TO_UNDO :=
  ⟨((C7_failed_operations_produce_no_content "# d\nplain text" "## Today").1
      (by decide)).1 "hi" (some "9:30") "12:00" "09:30" (by decide),
   (C7_failed_operations_produce_no_content "# d\n\n## Today\n\nprose only\n## Next"
      "## Today").2 ⟨2, 5, ["# d", "", "## Today", "", "prose only", "## Next"]⟩
      (by decide) (by decide)⟩

/-- C2: for every document in which the header is found — in particular after
any sequence of insert operations — `getTodayLogEntries` returns the entries
in non-decreasing order of total minutes since midnight (hour × 60 + minute),
and entries with equal total minutes keep their relative order of appearance
in the file (the sort is stable). -/
theorem C2_list_sorted_and_stable (content headerText : String) (sec : TodaySection)
    (hsec : findTodaySection content headerText = .ok sec) :
    ∃ entries, getTodayLogEntries content headerText = .ok entries ∧
      entries.Pairwise (fun a b => jsTimeMinutes a.time ≤ jsTimeMinutes b.time) ∧
      (∀ k : Nat, entries.filter (fun a => jsTimeMinutes a.time == k)
        = (sectionScan sec).filter (fun a => jsTimeMinutes a.time == k)) :=
  ⟨sortEntries (sectionScan sec), getTodayLogEntries_ok hsec,
   sortEntries_sorted (sectionScan sec),
   fun k => sortEntries_filter_compat (sectionScan sec) _ (entryLE_key_compat k)⟩

/-- Witness for C2: a concrete section with out-of-order entries and an
equal-time tie (`- 09:00 a` before `- 09:00 c` stays that way). -/
theorem C2_list_sorted_and_stable_witness :
    getTodayLogEntries "## Today\n- 11:00 b\n- 09:00 a\n- 09:00 c" "## Today"
      = .ok [⟨"09:00", "a", "- 09:00 a"⟩, ⟨"09:00", "c", "- 09:00 c"⟩,
          ⟨"11:00", "b", "- 11:00 b"⟩] ∧
    List.Pairwise (fun a b => jsTimeMinutes a.time ≤ jsTimeMinutes b.time)
      [(⟨"09:00", "a", "- 09:00 a"⟩ : LogEntry), ⟨"09:00", "c", "- 09:00 c"⟩,
        ⟨"11:00", "b", "- 11:00 b"⟩] := by
  obtain ⟨entries, h1, h2, h3⟩ := C2_list_sorted_and_stable
    "## Today\n- 11:00 b\n- 09:00 a\n- 09:00 c" "## Today"
    ⟨0, 4, ["## Today", "- 11:00 b", "- 09:00 a", "- 09:00 c"]⟩ (by decide)
  have h4 : getTodayLogEntries "## Today\n- 11:00 b\n- 09:00 a\n- 09:00 c" "## Today"
      = .ok [⟨"09:00", "a", "- 09:00 a"⟩, ⟨"09:00", "c", "- 09:00 c"⟩,
          ⟨"11:00", "b", "- 11:00 b"⟩] := by decide
  rw [h1] at h4
  injection h4 with h4
  subst h4
  exact ⟨h1, h2⟩

/-- C1: for every document in which the header is found, the insert operation
removes from the section body exactly the lines matching the bullet grammar,
and writes the full entry set (existing plus the new one), sorted by time, as
consecutive lines starting immediately after the header line — so the written
document is: prefix through the header line, the sorted raw entry lines, the
remaining non-entry body lines, then the tail from the section end on.  The
inserted list is a permutation of existing-plus-new and is sorted by time. -/
theorem C1_insert_rewrites_section (logMessage : String) (customTime : Option String)
    (nowTime content headerText : String) (sec : TodaySection) (timestamp : String)
    (hsec : findTodaySection content headerText = .ok sec)
    (hts : resolveTimestamp customTime nowTime = .ok timestamp) :
    addLogEntry logMessage customTime nowTime content headerText =
      .ok (joinNl (sec.lines.take (sec.startIndex + 1)
        ++ (sortEntries (sectionScan sec
              ++ [⟨timestamp, logMessage, "- " ++ timestamp ++ " " ++ logMessage⟩])).map LogEntry.raw
        ++ (sectionBody sec).filter (fun l => (parseLogEntry l).isNone)
        ++ sec.lines.drop sec.endIndex)) ∧
    List.Perm
      (sortEntries (sectionScan sec
        ++ [⟨timestamp, logMessage, "- " ++ timestamp ++ " " ++ logMessage⟩]))
      (sectionScan sec ++ [⟨timestamp, logMessage, "- " ++ timestamp ++ " " ++ logMessage⟩]) ∧
    (sortEntries (sectionScan sec
        ++ [⟨timestamp, logMessage, "- " ++ timestamp ++ " " ++ logMessage⟩])).Pairwise
      (fun a b => jsTimeMinutes a.time ≤ jsTimeMinutes b.time) :=
  ⟨addLogEntry_eq logMessage customTime nowTime content headerText sec timestamp hsec hts,
   sortEntries_perm _, sortEntries_sorted _⟩

/-- Witness for C1: inserting `hello` at 9:30 into a document with entries
out of order and interleaved prose; the written document has the sorted
entries grouped right after the header, with the prose displaced below. -/
theorem C1_insert_rewrites_section_witness :
    addLogEntry "hello" (some "9:30") "12:00"
      "# d\n\n## Today\n\n- 14:00 a\nnote\n- 09:00 b\n\n## Next\nx" "## Today"
      = .ok "# d\n\n## Today\n- 09:00 b\n- 09:30 hello\n- 14:00 a\n\nnote\n\n## Next\nx" := by
  have h := C1_insert_rewrites_section "hello" (some "9:30") "12:00"
    "# d\n\n## Today\n\n- 14:00 a\nnote\n- 09:00 b\n\n## Next\nx" "## Today"
    ⟨2, 8, ["# d", "", "## Today", "", "- 14:00 a", "note", "- 09:00 b", "", "## Next", "x"]⟩
    "09:30" (by decide) (by decide)
  rw [h.1]
  decide

/-- C8: both mutating operations only rewrite the section region: every line
at or before the header line and every line at or after the section end is
written back unchanged and in its original relative order (the written
document is original prefix ++ new middle ++ original suffix). -/
theorem C8_frame_preserves_outside_lines (content headerText : String)
    (sec : TodaySection) (hsec : findTodaySection content headerText = .ok sec) :
    (∀ msg customT nowT ts, resolveTimestamp customT nowT = .ok ts →
      addLogEntry msg customT nowT content headerText =
        .ok (joinNl (sec.lines.take (sec.startIndex + 1)
          ++ ((sortEntries (sectionScan sec
                ++ [⟨ts, msg, "- " ++ ts ++ " " ++ msg⟩])).map LogEntry.raw
              ++ (sectionBody sec).filter (fun l => (parseLogEntry l).isNone))
          ++ sec.lines.drop sec.endIndex))) ∧
    (sortEntries (sectionScan sec) ≠ [] → ∃ j,
      sec.startIndex + 1 ≤ j ∧ j < sec.endIndex ∧
      undoLastEntry content headerText =
        .ok (joinNl (sec.lines.take (sec.startIndex + 1)
          ++ ((sec.lines.take j).drop (sec.startIndex + 1)
              ++ (sec.lines.take sec.endIndex).drop (j + 1))
          ++ sec.lines.drop sec.endIndex))) := by
  obtain ⟨-, hslen, -, -, hse, helen, -, -⟩ :=
    findTodaySection_ok_spec content headerText sec hsec
  constructor
  · intro msg customT nowT ts hts
    rw [addLogEntry_eq msg customT nowT content headerText sec ts hsec hts]
    congr 1
    simp [List.append_assoc]
  · intro hne
    obtain ⟨j, hj1, hj2, hj3, hj4, hj5⟩ := undoLastEntry_eq content headerText sec hsec hne
    refine ⟨j, hj1, hj2, ?_⟩
    rw [hj5]
    have h1 : sec.lines.take j = sec.lines.take (sec.startIndex + 1)
        ++ (sec.lines.take j).drop (sec.startIndex + 1) := by
      conv_lhs => rw [← List.take_append_drop (sec.startIndex + 1) (sec.lines.take j)]
      rw [List.take_take, Nat.min_eq_left (by omega)]
    have h2 : sec.lines.drop (j + 1) = (sec.lines.take sec.endIndex).drop (j + 1)
        ++ sec.lines.drop sec.endIndex := by
      conv_lhs => rw [← List.take_append_drop sec.endIndex sec.lines]
      rw [List.drop_append_of_le_length (by rw [List.length_take_of_le helen]; omega)]
    have hL : sec.lines.eraseIdx j =
        sec.lines.take (sec.startIndex + 1)
          ++ ((sec.lines.take j).drop (sec.startIndex + 1)
              ++ (sec.lines.take sec.endIndex).drop (j + 1))
          ++ sec.lines.drop sec.endIndex := by
      rw [List.eraseIdx_eq_take_drop_succ]
      conv_lhs => rw [h1, h2]
      simp [List.append_assoc]
    rw [hL]

/-- Witness for C8: on a three-line document, insert keeps the header line
and there is nothing after the section; the rewritten region sits between. -/
theorem C8_frame_preserves_outside_lines_witness :
    addLogEntry "m" (some "9:30") "10:00" "intro\n## Today\n- 11:00 a" "## Today"
      = .ok "intro\n## Today\n- 09:30 m\n- 11:00 a" := by
  have h := (C8_frame_preserves_outside_lines "intro\n## Today\n- 11:00 a" "## Today"
    ⟨1, 3, ["intro", "## Today", "- 11:00 a"]⟩ (by decide)).1
    "m" (some "9:30") "10:00" "09:30" (by decide)
  rw [h]
  decide

/-- C3: for every document whose section contains at least one parseable
entry, `undoLastEntry` selects the entry with maximum time of day — the last
among equal-time ties in order of appearance — deletes exactly the first
section-body line whose text equals that entry's raw line, and leaves every
other line of the document unchanged (the result is the document with that
single line removed). -/
theorem C3_removeLast_deletes_first_match_of_latest (content headerText : String)
    (sec : TodaySection) (hsec : findTodaySection content headerText = .ok sec)
    (hne : sortEntries (sectionScan sec) ≠ []) :
    ∃ lastEntry j,
      (sortEntries (sectionScan sec)).getLast? = some lastEntry ∧
      (∀ x ∈ sectionScan sec, jsTimeMinutes x.time ≤ jsTimeMinutes lastEntry.time) ∧
      ((sectionScan sec).filter
          (fun x => jsTimeMinutes x.time == jsTimeMinutes lastEntry.time)).getLast?
        = some lastEntry ∧
      sec.startIndex + 1 ≤ j ∧ j < sec.endIndex ∧
      sec.lines.getD j "" = lastEntry.raw ∧
      (∀ k, sec.startIndex + 1 ≤ k → k < j → sec.lines.getD k "" ≠ lastEntry.raw) ∧
      undoLastEntry content headerText = .ok (joinNl (sec.lines.eraseIdx j)) := by
  obtain ⟨j, hj1, hj2, hj3, hj4, hj5⟩ := undoLastEntry_eq content headerText sec hsec hne
  refine ⟨(sortEntries (sectionScan sec)).getLast hne, j,
    List.getLast?_eq_getLast _ hne, ?_, ?_, hj1, hj2, hj3, hj4, hj5⟩
  · intro x hx
    exact sorted_le_getLast _ (sortEntries_sorted _) hne x
      ((sortEntries_perm _).mem_iff.mpr hx)
  · have h1 := filter_key_getLast (sortEntries (sectionScan sec)) (sortEntries_sorted _) hne
    rw [sortEntries_filter_compat _ _ (entryLE_key_compat _)] at h1
    exact h1

/-- Witness for C3: with two 14:00 entries, the later one in file order is
removed, and it is the last element of the equal-time tie class. -/
theorem C3_removeLast_deletes_first_match_of_latest_witness :
    ((sectionScan ⟨0, 4, ["## Today", "- 14:00 x", "- 14:00 y", "- 09:00 a"]⟩).filter
        (fun x => jsTimeMinutes x.time == 840)).getLast?
      = some ⟨"14:00", "y", "- 14:00 y"⟩ ∧
    undoLastEntry "## Today\n- 14:00 x\n- 14:00 y\n- 09:00 a" "## Today"
      = .ok "## Today\n- 14:00 x\n- 09:00 a" := by
  obtain ⟨lastEntry, j, h1, h2, h3, h4, h5, h6, h7, h8⟩ :=
    C3_removeLast_deletes_first_match_of_latest
      "## Today\n- 14:00 x\n- 14:00 y\n- 09:00 a" "## Today"
      ⟨0, 4, ["## Today", "- 14:00 x", "- 14:00 y", "- 09:00 a"]⟩ (by decide) (by decide)
  have hlast : lastEntry = ⟨"14:00", "y", "- 14:00 y"⟩ := by
    have h9 : (sortEntries (sectionScan
        (⟨0, 4, ["## Today", "- 14:00 x", "- 14:00 y", "- 09:00 a"]⟩ : TodaySection))).getLast?
        = some ⟨"14:00", "y", "- 14:00 y"⟩ := by decide
    rw [h1] at h9
    injection h9 with h9
  subst hlast
  constructor
  · have h840 : jsTimeMinutes ("14:00" : String) = 840 := by decide
    rw [← h840]
    exact h3
  · decide

/-! ### Time validation against the specification (C4, C10) -/

theorem digitsToNat_single (a : Char) : digitsToNat [a] = a.toNat - 48 := by
  simp [digitsToNat, List.foldl]

theorem digitsToNat_pair (a b : Char) :
    digitsToNat [a, b] = (a.toNat - 48) * 10 + (b.toNat - 48) := by
  simp [digitsToNat, List.foldl]

theorem char_eq_of_toNat {a b : Char} (h : a.val.toNat = b.val.toNat) : a = b :=
  Char.ext (UInt32.ext h)

theorem isDigit_of_val {c : Char} (h1 : 48 ≤ c.val.toNat) (h2 : c.val.toNat ≤ 57) :
    c.isDigit = true := by
  simp only [Char.isDigit, Bool.and_eq_true, decide_eq_true_eq]
  exact ⟨h1, h2⟩

/-- The set of time strings the specification declares valid: a 1–2 digit hour
with value 0–23, a colon, exactly two minute digits with value 0–59.  Stated
from the claim's wording, to be compared with the source's
`validateTimeFormat`. -/
def specValidTime (s : String) : Prop :=
  ∃ hs ms : List Char, s.data = hs ++ ':' :: ms ∧
    (hs.length = 1 ∨ hs.length = 2) ∧ (∀ c ∈ hs, c.isDigit = true) ∧ digitsToNat hs ≤ 23 ∧
    ms.length = 2 ∧ (∀ c ∈ ms, c.isDigit = true) ∧ digitsToNat ms ≤ 59

theorem validateTimeFormat_iff (s : String) :
    validateTimeFormat s = true ↔ specValidTime s := by
  constructor
  · intro hv
    unfold validateTimeFormat at hv
    split at hv
    · rename_i a m1 m2 heq
      simp only [Bool.and_eq_true, decide_eq_true_eq] at hv
      obtain ⟨ha, ⟨hm1l, hm1u⟩, hm2⟩ := hv
      have hm1lo : 48 ≤ m1.val.toNat := hm1l
      have hm1hi : m1.val.toNat ≤ 53 := hm1u
      have hm1d : m1.isDigit = true := isDigit_of_val hm1lo (by omega)
      obtain ⟨ha1, ha2⟩ := isDigit_val ha
      obtain ⟨hb1, hb2⟩ := isDigit_val hm2
      refine ⟨[a], [m1, m2], by simp [heq], Or.inl rfl, ?_, ?_, rfl, ?_, ?_⟩
      · intro c hc
        rw [List.mem_singleton] at hc
        subst hc
        exact ha
      · rw [digitsToNat_single]
        have h0 : a.toNat = a.val.toNat := rfl
        omega
      · intro c hc
        simp only [List.mem_cons, List.not_mem_nil, or_false] at hc
        rcases hc with rfl | rfl
        · exact hm1d
        · exact hm2
      · rw [digitsToNat_pair]
        have h1 : m1.toNat = m1.val.toNat := rfl
        have h2 : m2.toNat = m2.val.toNat := rfl
        omega
    · rename_i a b m1 m2 heq
      simp only [Bool.and_eq_true, Bool.or_eq_true, decide_eq_true_eq] at hv
      obtain ⟨hhour, ⟨hm1l, hm1u⟩, hm2⟩ := hv
      have hm1lo : 48 ≤ m1.val.toNat := hm1l
      have hm1hi : m1.val.toNat ≤ 53 := hm1u
      have hm1d : m1.isDigit = true := isDigit_of_val hm1lo (by omega)
      obtain ⟨hb1, hb2⟩ := isDigit_val hm2
      have had : a.isDigit = true := by
        rcases hhour with ⟨rfl | rfl, -⟩ | ⟨rfl, -⟩ <;> decide
      have hbd : b.isDigit = true := by
        rcases hhour with ⟨-, hb⟩ | ⟨-, hbl, hbu⟩
        · exact hb
        · have hbl' : 48 ≤ b.val.toNat := hbl
          have hbu' : b.val.toNat ≤ 51 := hbu
          exact isDigit_of_val hbl' (by omega)
      refine ⟨[a, b], [m1, m2], by simp [heq], Or.inr rfl, ?_, ?_, rfl, ?_, ?_⟩
      · intro c hc
        simp only [List.mem_cons, List.not_mem_nil, or_false] at hc
        rcases hc with rfl | rfl
        · exact had
        · exact hbd
      · have h1 : a.toNat = a.val.toNat := rfl
        have h2 : b.toNat = b.val.toNat := rfl
        obtain ⟨hbv1, hbv2⟩ := isDigit_val hbd
        rw [digitsToNat_pair]
        rcases hhour with ⟨hab, -⟩ | ⟨ha2, -, hbu⟩
        · have ha' : a.val.toNat ≤ 49 := by
            rcases hab with rfl | rfl
            · decide
            · decide
          omega
        · have ha' : a.val.toNat = 50 := by
            rw [ha2]
            decide
          have hbu' : b.val.toNat ≤ 51 := hbu
          omega
      · intro c hc
        simp only [List.mem_cons, List.not_mem_nil, or_false] at hc
        rcases hc with rfl | rfl
        · exact hm1d
        · exact hm2
      · rw [digitsToNat_pair]
        have h1 : m1.toNat = m1.val.toNat := rfl
        have h2 : m2.toNat = m2.val.toNat := rfl
        omega
    · exact absurd hv (by simp)
  · rintro ⟨hs, ms, hdata, hlen, hdig, hval, hmslen, hmsdig, hmsval⟩
    obtain ⟨m1, m2, rfl⟩ := List.length_eq_two.mp hmslen
    have hm1 : m1.isDigit = true := hmsdig m1 (by simp)
    have hm2 : m2.isDigit = true := hmsdig m2 (by simp)
    obtain ⟨hv1l, hv1h⟩ := isDigit_val hm1
    obtain ⟨hv2l, hv2h⟩ := isDigit_val hm2
    have ht1 : m1.toNat = m1.val.toNat := rfl
    have ht2 : m2.toNat = m2.val.toNat := rfl
    rw [digitsToNat_pair] at hmsval
    have hm1hi : m1.val.toNat ≤ 53 := by omega
    have hm1le : m1 ≤ '5' := hm1hi
    have hm1ge : '0' ≤ m1 := hv1l
    have hminute : (('0' ≤ m1 && m1 ≤ '5') && m2.isDigit) = true := by
      simp only [Bool.and_eq_true, decide_eq_true_eq]
      exact ⟨⟨hm1ge, hm1le⟩, hm2⟩
    rcases hlen with h1 | h2
    · obtain ⟨a, rfl⟩ := List.length_eq_one.mp h1
      have ha : a.isDigit = true := hdig a (by simp)
      simp only [List.cons_append, List.nil_append] at hdata
      unfold validateTimeFormat
      rw [hdata]
      simp [ha, hminute]
    · obtain ⟨a, b, rfl⟩ := List.length_eq_two.mp h2
      have ha : a.isDigit = true := hdig a (by simp)
      have hb : b.isDigit = true := hdig b (by simp)
      obtain ⟨hva, hva'⟩ := isDigit_val ha
      obtain ⟨hvb, hvb'⟩ := isDigit_val hb
      have hta : a.toNat = a.val.toNat := rfl
      have htb : b.toNat = b.val.toNat := rfl
      rw [digitsToNat_pair] at hval
      have hhour : (((a = '0' || a = '1') && b.isDigit)
          || (a = '2' && ('0' ≤ b && b ≤ '3'))) = true := by
        rcases Nat.lt_or_ge a.val.toNat 50 with hlt | hge
        · have hab : a = '0' ∨ a = '1' := by
            rcases (show a.val.toNat = 48 ∨ a.val.toNat = 49 by omega) with h | h
            · exact Or.inl (char_eq_of_toNat h)
            · exact Or.inr (char_eq_of_toNat h)
          rcases hab with rfl | rfl <;> simp [hb]
        · have ha50 : a.val.toNat = 50 := by omega
          have ha2 : a = '2' := char_eq_of_toNat ha50
          have hvb3 : b.val.toNat ≤ 51 := by omega
          have hbge : '0' ≤ b := hvb
          have hble : b ≤ '3' := hvb3
          subst ha2
          simp [hbge, hble]
      simp only [List.cons_append, List.nil_append] at hdata
      unfold validateTimeFormat
      rw [hdata]
      simp [hhour, hminute]

theorem takeWhile_digits {l : List Char} (h : ∀ c ∈ l, c.isDigit = true) :
    l.takeWhile Char.isDigit = l :=
  List.takeWhile_eq_self_iff.mpr h

theorem padZero_two (n : Nat) (hn : n ≤ 99) :
    (padZero n 2).data.length = 2 ∧ (∀ c ∈ (padZero n 2).data, c.isDigit = true) ∧
      digitsToNat (padZero n 2).data = n := by
  interval_cases n <;> exact (by decide)

/-- Closed form of `formatTime` on a string of the colon-separated digit
shape. -/
theorem formatTime_eq {s : String} {hs ms : List Char}
    (hdata : s.data = hs ++ ':' :: ms)
    (hdig : ∀ c ∈ hs, c.isDigit = true) (hmsdig : ∀ c ∈ ms, c.isDigit = true) :
    formatTime s = padZero (digitsToNat hs) 2 ++ ":" ++ padZero (digitsToNat ms) 2 := by
  have hnc1 : (':' : Char) ∉ hs := fun hc => digit_ne_colon (hdig _ hc) rfl
  have hnc2 : (':' : Char) ∉ ms := fun hc => digit_ne_colon (hmsdig _ hc) rfl
  unfold formatTime
  rw [hdata, splitOnChar_append_sep ':' hs hnc1, splitOnChar_of_not_mem ':' ms hnc2]
  show padZero (digitsToNat (hs.takeWhile Char.isDigit)) 2 ++ ":" ++
      padZero (digitsToNat (ms.takeWhile Char.isDigit)) 2 = _
  rw [takeWhile_digits hdig, takeWhile_digits hmsdig]

/-- Closed form of the minutes-since-midnight value on a string of the
colon-separated shape. -/
theorem jsTimeMinutes_eq {s : String} {hs ms : List Char}
    (hdata : s.data = hs ++ ':' :: ms)
    (hnc1 : (':' : Char) ∉ hs) (hnc2 : (':' : Char) ∉ ms) :
    jsTimeMinutes s = digitsToNat hs * 60 + digitsToNat ms := by
  unfold jsTimeMinutes
  rw [hdata, splitOnChar_append_sep ':' hs hnc1, splitOnChar_of_not_mem ':' ms hnc2]
  rfl

/-- Every accepted time string is normalized by `formatTime` to a 5-character
`HH:mm` string that is itself accepted, denotes the same number of minutes,
and is a regex time token. -/
theorem formatTime_spec {s : String} (h : validateTimeFormat s = true) :
    validateTimeFormat (formatTime s) = true ∧ (formatTime s).data.length = 5 ∧
      jsTimeMinutes (formatTime s) = jsTimeMinutes s ∧
      isTimeToken (formatTime s).data = true := by
  obtain ⟨hs, ms, hdata, hlen, hdig, hval, hmslen, hmsdig, hmsval⟩ :=
    (validateTimeFormat_iff s).mp h
  have hfe := formatTime_eq hdata hdig hmsdig
  obtain ⟨hl1, hd1, hv1⟩ := padZero_two (digitsToNat hs) (by omega)
  obtain ⟨hl2, hd2, hv2⟩ := padZero_two (digitsToNat ms) (by omega)
  obtain ⟨c1, c2, he1⟩ := List.length_eq_two.mp hl1
  obtain ⟨c3, c4, he2⟩ := List.length_eq_two.mp hl2
  have hc1 : c1.isDigit = true := hd1 c1 (by rw [he1]; simp)
  have hc2 : c2.isDigit = true := hd1 c2 (by rw [he1]; simp)
  have hc3 : c3.isDigit = true := hd2 c3 (by rw [he2]; simp)
  have hc4 : c4.isDigit = true := hd2 c4 (by rw [he2]; simp)
  have hdig2 : ∀ c ∈ [c1, c2], c.isDigit = true := by
    intro c hc
    simp only [List.mem_cons, List.not_mem_nil, or_false] at hc
    rcases hc with rfl | rfl
    · exact hc1
    · exact hc2
  have hdig34 : ∀ c ∈ [c3, c4], c.isDigit = true := by
    intro c hc
    simp only [List.mem_cons, List.not_mem_nil, or_false] at hc
    rcases hc with rfl | rfl
    · exact hc3
    · exact hc4
  have hdata2 : (formatTime s).data = [c1, c2] ++ ':' :: [c3, c4] := by
    rw [hfe, String.data_append, String.data_append, he1, he2]
    rfl
  have hvc12 : digitsToNat [c1, c2] = digitsToNat hs := by rw [← he1]; exact hv1
  have hvc34 : digitsToNat [c3, c4] = digitsToNat ms := by rw [← he2]; exact hv2
  have hnc12 : (':' : Char) ∉ [c1, c2] := fun hc => digit_ne_colon (hdig2 ':' hc) rfl
  have hnc34 : (':' : Char) ∉ [c3, c4] := fun hc => digit_ne_colon (hdig34 ':' hc) rfl
  refine ⟨?_, ?_, ?_, ?_⟩
  · exact (validateTimeFormat_iff _).mpr ⟨[c1, c2], [c3, c4], hdata2, Or.inr rfl,
      hdig2, (by rw [hvc12]; exact hval), rfl, hdig34, (by rw [hvc34]; exact hmsval)⟩
  · rw [hdata2]
    rfl
  · have hq1 := jsTimeMinutes_eq hdata2 hnc12 hnc34
    have hq2 := jsTimeMinutes_eq hdata
      (fun hc => digit_ne_colon (hdig _ hc) rfl)
      (fun hc => digit_ne_colon (hmsdig _ hc) rfl)
    rw [hq1, hq2, hvc12, hvc34]
  · rw [hdata2]
    show isTimeToken [c1, c2, ':', c3, c4] = true
    simp [isTimeToken, hc1, hc2, hc3, hc4]

/-- A non-empty override value failing the validator makes `addLogEntry` fail
with `INVALID_TIME_FORMAT` before touching the document. -/
theorem addLogEntry_invalid_time {s : String} (hval : validateTimeFormat s = false)
    (hsne : s ≠ "") (msg nowT content headerText : String) :
    addLogEntry msg (some s) nowT content headerText = .error .INVALID_TIME_FORMAT := by
  have hr : resolveTimestamp (some s) nowT = .error .INVALID_TIME_FORMAT := by
    unfold resolveTimestamp
    rw [if_pos (by simpa using hsne), if_neg (by simp [hval])]
  unfold addLogEntry
  rw [hr]

/-! ### Claim C4 -/

/-- Counterexample to C4 as stated: the empty string is outside the accepted
set (`validateTimeFormat "" = false`), yet supplying it as the time override
is not rejected with INVALID_TIME_FORMAT — the empty string is falsy in JS, so
`addLogEntry` silently falls back to the current clock time and succeeds. -/
theorem C4_counterexample_empty_override :
    validateTimeFormat "" = false ∧
    addLogEntry "hello" (some "") "12:00" "## Today" "## Today"
      = .ok "## Today\n- 12:00 hello" ∧
    addLogEntry "hello" (some "") "12:00" "## Today" "## Today"
      ≠ .error .INVALID_TIME_FORMAT := by
  refine ⟨by decide, by decide, by decide⟩

/-- C4 (amended): the validator accepts exactly the strings of the form
`H:mm`/`HH:mm` with hour 0–23 and minute 0–59; the formatter normalizes every
accepted string to a 5-character 2-digit-hour/2-digit-minute form preserving
its minute value; every NON-EMPTY string outside the accepted set supplied
via the time override is rejected with INVALID_TIME_FORMAT; the empty-string
override is treated as absent (JS falsiness) and behaves as if no override
was given. -/
theorem C4_time_validation_amended :
    (∀ s : String, validateTimeFormat s = true ↔ specValidTime s) ∧
    (∀ s : String, validateTimeFormat s = true →
      validateTimeFormat (formatTime s) = true ∧ (formatTime s).data.length = 5 ∧
        jsTimeMinutes (formatTime s) = jsTimeMinutes s) ∧
    (∀ s msg nowT content headerText, validateTimeFormat s = false → s ≠ "" →
      addLogEntry msg (some s) nowT content headerText = .error .INVALID_TIME_FORMAT) ∧
    (∀ msg nowT content headerText,
      addLogEntry msg (some "") nowT content headerText
        = addLogEntry msg none nowT content headerText) := by
  refine ⟨validateTimeFormat_iff, ?_, ?_, ?_⟩
  · intro s h
    obtain ⟨q1, q2, q3, -⟩ := formatTime_spec h
    exact ⟨q1, q2, q3⟩
  · intro s msg nowT content headerText hval hsne
    exact addLogEntry_invalid_time hval hsne msg nowT content headerText
  · intro msg nowT content headerText
    have h1 : resolveTimestamp (some "") nowT = .ok nowT := by simp [resolveTimestamp]
    have h2 : resolveTimestamp none nowT = .ok nowT := by simp [resolveTimestamp]
    unfold addLogEntry
    rw [h1, h2]

/-- Witness for C4: `9:05` is accepted and normalizes with the same minute
value; `25:30` as an override is rejected; an empty override behaves like no
override. -/
theorem C4_time_validation_amended_witness :
    specValidTime "9:05" ∧
    (validateTimeFormat (formatTime "9:05") = true ∧ (formatTime "9:05").data.length = 5 ∧
      jsTimeMinutes (formatTime "9:05") = jsTimeMinutes "9:05") ∧
    addLogEntry "hi" (some "25:30") "12:00" "## Today" "## Today"
      = .error .INVALID_TIME_FORMAT ∧
    addLogEntry "hi" (some "") "12:00" "## Today" "## Today"
      = addLogEntry "hi" none "12:00" "## Today" "## Today" :=
  ⟨(C4_time_validation_amended.1 "9:05").mp (by decide),
   C4_time_validation_amended.2.1 "9:05" (by decide),
   C4_time_validation_amended.2.2.1 "25:30" "hi" "12:00" "## Today" "## Today"
     (by decide) (by decide),
   C4_time_validation_amended.2.2.2 "hi" "12:00" "## Today" "## Today"⟩

/-! ### Claim C10 -/

/-- C10: the entry parser accepts every section line of the bullet shape
regardless of the numeric range of its time — hour above 23 or minutes above
59 included — so list, sort and remove-last operate on such out-of-range
entries; the 0–23/0–59 range check (`validateTimeFormat`) is applied only to
the `-t` or `--time` override inside `addLogEntry`, never to lines read from
the file. -/
theorem C10_parser_accepts_out_of_range :
    (∀ (ws1 timeCs ws2 msg : List Char),
      ws1 ≠ [] → (∀ c ∈ ws1, isJsWhitespace c = true) →
      isTimeToken timeCs = true →
      ws2 ≠ [] → (∀ c ∈ ws2, isJsWhitespace c = true) →
      msg ≠ [] → (∀ c ∈ msg, isLineTerm c = false) →
      ∃ en, parseLogEntry (String.mk ('-' :: (ws1 ++ (timeCs ++ (ws2 ++ msg)))))
          = some en ∧ en.time = String.mk timeCs ∧
          en.raw = String.mk ('-' :: (ws1 ++ (timeCs ++ (ws2 ++ msg))))) ∧
    parseLogEntry "- 25:61 x" = some ⟨"25:61", "x", "- 25:61 x"⟩ ∧
    validateTimeFormat "25:61" = false ∧
    getTodayLogEntries "## Today\n- 25:61 x\n- 09:00 a" "## Today"
      = .ok [⟨"09:00", "a", "- 09:00 a"⟩, ⟨"25:61", "x", "- 25:61 x"⟩] ∧
    undoLastEntry "## Today\n- 25:61 x\n- 09:00 a" "## Today"
      = .ok "## Today\n- 09:00 a" ∧
    (∀ s msg nowT content headerText, validateTimeFormat s = false → s ≠ "" →
      addLogEntry msg (some s) nowT content headerText = .error .INVALID_TIME_FORMAT) := by
  refine ⟨?_, by decide, by decide, by decide, by decide, ?_⟩
  · intro ws1 timeCs ws2 msg h1 h2 h3 h4 h5 h6 h7
    obtain ⟨msgCs, hne, hsub, hp⟩ := parseLogEntry_shape ws1 timeCs ws2 msg h1 h2 h3 h4 h5 h6 h7
    exact ⟨_, hp, rfl, rfl⟩
  · intro s msg nowT content headerText hval hsne
    exact addLogEntry_invalid_time hval hsne msg nowT content headerText

/-! ### Claim C9 -/

theorem parseArgsLoop_cons (arg : String) (rest : List String) (result : CommandArgs)
    (messageArgs : List String) :
    parseArgsLoop (arg :: rest) result messageArgs =
      if arg = "-h" || arg = "--help" then
        parseArgsLoop rest { result with help := true } messageArgs
      else if arg = "-l" || arg = "--list" then
        parseArgsLoop rest { result with list := true } messageArgs
      else if arg = "-u" || arg = "--undo" then
        parseArgsLoop rest { result with undo := true } messageArgs
      else if arg = "-t" || arg = "--time" then
        match rest with
        | v :: rest2 => parseArgsLoop rest2 { result with time := some v } messageArgs
        | [] => .error .INVALID_ARGUMENTS
      else if jsStartsWith arg "-" then .error .INVALID_ARGUMENTS
      else parseArgsLoop rest result (messageArgs ++ [arg]) := by
  rw [parseArgsLoop.eq_def]

/-- The argument loop fails with `INVALID_ARGUMENTS` whenever the very last
argument is a time flag (no value can follow), regardless of accumulator
state. -/
theorem parseArgsLoop_trailing :
    ∀ (pre : List String), "-t" ∉ pre → "--time" ∉ pre →
    ∀ (flag : String), flag = "-t" ∨ flag = "--time" →
    ∀ (result : CommandArgs) (msgArgs : List String),
    parseArgsLoop (pre ++ [flag]) result msgArgs = .error .INVALID_ARGUMENTS := by
  intro pre
  induction pre with
  | nil =>
    intro _ _ flag hflag result msgArgs
    rcases hflag with rfl | rfl
    · simp [parseArgsLoop]
    · simp [parseArgsLoop]
  | cons a rest ih =>
    intro h1 h2 flag hflag result msgArgs
    have h1' : "-t" ∉ rest := fun h => h1 (List.mem_cons_of_mem _ h)
    have h2' : "--time" ∉ rest := fun h => h2 (List.mem_cons_of_mem _ h)
    have ha1 : a ≠ "-t" := fun h => h1 (h ▸ List.mem_cons_self _ _)
    have ha2 : a ≠ "--time" := fun h => h2 (h ▸ List.mem_cons_self _ _)
    rw [List.cons_append, parseArgsLoop_cons]
    by_cases hah : (a = "-h" || a = "--help") = true
    · rw [if_pos hah]
      exact ih h1' h2' flag hflag _ _
    · rw [if_neg hah]
      by_cases hal : (a = "-l" || a = "--list") = true
      · rw [if_pos hal]
        exact ih h1' h2' flag hflag _ _
      · rw [if_neg hal]
        by_cases hau : (a = "-u" || a = "--undo") = true
        · rw [if_pos hau]
          exact ih h1' h2' flag hflag _ _
        · rw [if_neg hau]
          rw [if_neg (show ¬ ((a = "-t" || a = "--time") = true) by simp [ha1, ha2])]
          by_cases has : jsStartsWith a "-" = true
          · rw [if_pos has]
          · rw [if_neg has]
            exact ih h1' h2' flag hflag _ _

/-- Counterexample to C9 as stated: in `-t 09:30 -l` the time flag has a
value but the argument list contains no message, yet the invocation does not
fail — the list flag wins the dispatch in `main` and the run lists the
entries, silently dropping the time override. -/
theorem C9_counterexample_time_without_message :
    parseArguments ["-t", "09:30", "-l"]
      = .ok ⟨none, some "09:30", true, false, false⟩ ∧
    mainDispatch ["-t", "09:30", "-l"] = .doList ∧
    mainDispatch ["-t", "09:30", "-l"] ≠ .fail .INVALID_ARGUMENTS := by
  refine ⟨by decide, by decide, by decide⟩

/-- C9 (amended): a `-t`/`--time` flag with no following value makes parsing
fail with INVALID_ARGUMENTS; when parsing succeeds and none of the help, list
and undo flags is set, a time override with no message fails the dispatch with
INVALID_ARGUMENTS, while a non-empty message leads to the add operation with
the parsed time override; when a help, list or undo flag is present, the
missing-message check never happens. -/
theorem C9_time_flag_requires_value_and_message :
    (∀ pre : List String, "-t" ∉ pre → "--time" ∉ pre →
      parseArguments (pre ++ ["-t"]) = .error .INVALID_ARGUMENTS ∧
      parseArguments (pre ++ ["--time"]) = .error .INVALID_ARGUMENTS) ∧
    (∀ (args : List String) (parsed : CommandArgs),
      parseArguments args = .ok parsed →
      parsed.help = false → parsed.list = false → parsed.undo = false →
      (parsed.message.getD "" = "" → parsed.time.getD "" ≠ "" →
        mainDispatch args = .fail .INVALID_ARGUMENTS) ∧
      (∀ m : String, parsed.message = some m → m ≠ "" →
        mainDispatch args = .doAdd m parsed.time)) := by
  constructor
  · intro pre h1 h2
    constructor
    · unfold parseArguments
      rw [parseArgsLoop_trailing pre h1 h2 "-t" (Or.inl rfl)]
    · unfold parseArguments
      rw [parseArgsLoop_trailing pre h1 h2 "--time" (Or.inr rfl)]
  · intro args parsed hp hhelp hlist hundo
    rcases args with _ | ⟨a, rest⟩
    · have h0 : parseArguments [] = .ok emptyArgs := by decide
      rw [h0] at hp
      injection hp with hp
      subst hp
      constructor
      · intro _ htime
        exact absurd rfl htime
      · intro m hm _
        exact Option.noConfusion hm
    · have hlen : ¬ ((a :: rest).length = 0) := by simp
      constructor
      · intro hmsg htime
        unfold mainDispatch
        rw [if_neg hlen, hp]
        dsimp only
        rw [if_neg (by simp [hhelp]), if_neg (by simp [hlist]),
          if_neg (by simp [hundo]), if_neg (by simp [hmsg]), if_pos htime]
      · intro m hm hmne
        unfold mainDispatch
        rw [if_neg hlen, hp]
        dsimp only
        rw [if_neg (by simp [hhelp]), if_neg (by simp [hlist]),
          if_neg (by simp [hundo]), if_pos (by simp [hm, hmne]), hm]
        simp

/-- Witness for C9: a trailing `-t` fails, a time override with no message
fails, and a message with a time override dispatches to the add operation
carrying that time. -/
theorem C9_time_flag_requires_value_and_message_witness :
    parseArguments (["hello"] ++ ["-t"]) = .error .INVALID_ARGUMENTS ∧
    mainDispatch ["-t", "09:30"] = .fail .INVALID_ARGUMENTS ∧
    mainDispatch ["hello", "-t", "09:30"] = .doAdd "hello" (some "09:30") := by
  refine ⟨(C9_time_flag_requires_value_and_message.1 ["hello"] (by decide) (by decide)).1,
    ?_, ?_⟩
  · exact (C9_time_flag_requires_value_and_message.2 ["-t", "09:30"]
      ⟨none, some "09:30", false, false, false⟩ (by decide) rfl rfl rfl).1 rfl (by decide)
  · exact (C9_time_flag_requires_value_and_message.2 ["hello", "-t", "09:30"]
      ⟨some "hello", some "09:30", false, false, false⟩ (by decide) rfl rfl rfl).2
      "hello" rfl (by decide)

/-- Witness for C10: the general acceptance applied to the out-of-range line
`- 25:61 xy`, and the override rejection applied to `25:61`. -/
theorem C10_parser_accepts_out_of_range_witness :
    (parseLogEntry (String.mk ('-' :: ([' '] ++ (['2', '5', ':', '6', '1'] ++
        ([' '] ++ ['x', 'y'])))))).isSome = true ∧
    addLogEntry "hello" (some "25:61") "12:00" "## Today" "## Today"
      = .error .INVALID_TIME_FORMAT := by
  constructor
  · obtain ⟨en, hp, -, -⟩ := C10_parser_accepts_out_of_range.1
      [' '] ['2', '5', ':', '6', '1'] [' '] ['x', 'y']
      (by decide) (by decide) (by decide) (by decide) (by decide) (by decide) (by decide)
    rw [hp]
    rfl
  · exact C10_parser_accepts_out_of_range.2.2.2.2.2 "25:61" "hello" "12:00" "## Today" "## Today"
      (by decide) (by decide)

/-! ### Claim C6 -/

theorem mem_take_getD (ls : List String) (n : Nat) (l : String) (h : l ∈ ls.take n) :
    ∃ k, k < n ∧ k < ls.length ∧ ls.getD k "" = l := by
  obtain ⟨k, hk, hkeq⟩ := List.mem_iff_getElem.mp h
  rw [List.length_take] at hk
  have hk1 : k < n := by omega
  have hk2 : k < ls.length := by omega
  refine ⟨k, hk1, hk2, ?_⟩
  rw [getD_eq_getElem_of_lt "" hk2, ← hkeq, List.getElem_take]

theorem mem_drop_take_getD (ls : List String) (a b : Nat) (l : String)
    (h : l ∈ (ls.take b).drop a) (hb : b ≤ ls.length) :
    ∃ j, a ≤ j ∧ j < b ∧ j < ls.length ∧ ls.getD j "" = l := by
  obtain ⟨k, hk, hkeq⟩ := List.mem_iff_getElem.mp h
  rw [List.length_drop, List.length_take] at hk
  have hj2 : a + k < b := by omega
  have hj3 : a + k < ls.length := by omega
  refine ⟨a + k, by omega, hj2, hj3, ?_⟩
  rw [getD_eq_getElem_of_lt "" hj3, ← hkeq, List.getElem_drop, List.getElem_take]

/-- The line `- <timestamp> <message>` written by `addLogEntry` parses back to
an entry with the same time and the whole line as raw text. -/
theorem newEntry_raw_parses {timestamp logMessage : String}
    (htok : isTimeToken timestamp.data = true)
    (hmsgne : logMessage.data ≠ [])
    (hterm : ∀ c ∈ logMessage.data, isLineTerm c = false) :
    ∃ e2, parseLogEntry ("- " ++ timestamp ++ " " ++ logMessage) = some e2 ∧
      e2.time = timestamp ∧ e2.raw = "- " ++ timestamp ++ " " ++ logMessage := by
  have hdataline : ("- " ++ timestamp ++ " " ++ logMessage).data
      = '-' :: ([' '] ++ (timestamp.data ++ ([' '] ++ logMessage.data))) := by
    simp [String.data_append]
  have hws : ∀ c ∈ [' '], isJsWhitespace c = true := by
    intro c hc
    rw [List.mem_singleton] at hc
    subst hc
    decide
  obtain ⟨msgCs, -, -, hp⟩ := parseLogEntry_shape [' '] timestamp.data [' '] logMessage.data
    (by simp) hws htok (by simp) hws hmsgne hterm
  have hstr : String.mk ('-' :: ([' '] ++ (timestamp.data ++ ([' '] ++ logMessage.data))))
      = "- " ++ timestamp ++ " " ++ logMessage := by
    rw [← hdataline, mk_data]
  rw [hstr] at hp
  exact ⟨_, hp, mk_data timestamp, rfl⟩

theorem newEntry_raw_no_newline {timestamp logMessage : String}
    (htok : isTimeToken timestamp.data = true)
    (hterm : ∀ c ∈ logMessage.data, isLineTerm c = false) :
    '\n' ∉ ("- " ++ timestamp ++ " " ++ logMessage).data := by
  have hdataline : ("- " ++ timestamp ++ " " ++ logMessage).data
      = '-' :: ([' '] ++ (timestamp.data ++ ([' '] ++ logMessage.data))) := by
    simp [String.data_append]
  rw [hdataline]
  intro hmem
  rcases List.mem_cons.mp hmem with h | hmem2
  · exact absurd h (by decide)
  rcases List.mem_append.mp hmem2 with h | hmem3
  · rw [List.mem_singleton] at h
    exact absurd h (by decide)
  rcases List.mem_append.mp hmem3 with h | hmem4
  · rcases isTimeToken_chars htok '\n' h with hd | hc
    · exact digit_ne_nl hd rfl
    · exact absurd hc (by decide)
  rcases List.mem_append.mp hmem4 with h | h
  · rw [List.mem_singleton] at h
    exact absurd h (by decide)
  · exact not_term_ne_nl (hterm '\n' h) rfl

/-- C6: for every document with a found header, inserting an entry whose time
is at least every existing entry's time and then immediately performing the
remove-last operation restores the prior set of entry raw lines exactly (the
entry lines of the resulting section are a permutation of the original ones;
positions relative to non-entry content may differ). -/
theorem C6_insert_undo_roundtrip (logMessage : String) (customTime : Option String)
    (nowTime content headerText : String) (sec : TodaySection) (timestamp : String)
    (hsec : findTodaySection content headerText = .ok sec)
    (hts : resolveTimestamp customTime nowTime = .ok timestamp)
    (htok : isTimeToken timestamp.data = true)
    (hmsgne : logMessage.data ≠ [])
    (hterm : ∀ c ∈ logMessage.data, isLineTerm c = false)
    (hmax : ∀ x ∈ sectionScan sec, jsTimeMinutes x.time ≤ jsTimeMinutes timestamp) :
    ∃ content1 content2 sec2,
      addLogEntry logMessage customTime nowTime content headerText = .ok content1 ∧
      undoLastEntry content1 headerText = .ok content2 ∧
      findTodaySection content2 headerText = .ok sec2 ∧
      List.Perm (entryLinesOf sec2) (entryLinesOf sec) := by
  obtain ⟨hlines, hslen, hmatch, hfirst, hse, helen, hnosec, hend⟩ :=
    findTodaySection_ok_spec content headerText sec hsec
  set A0 := sec.lines.take sec.startIndex with hA0def
  set hl0 := sec.lines.getD sec.startIndex "" with hhl0def
  set NE := (⟨timestamp, logMessage, "- " ++ timestamp ++ " " ++ logMessage⟩ : LogEntry)
    with hNEdef
  set R := (sortEntries (sectionScan sec ++ [NE])).map LogEntry.raw with hRdef
  set N := (sectionBody sec).filter (fun l => (parseLogEntry l).isNone) with hNdef
  set C := sec.lines.drop sec.endIndex with hCdef
  obtain ⟨E2, hE2parse, hE2time, hE2raw⟩ := newEntry_raw_parses htok hmsgne hterm
  have hNEraw : NE.raw = "- " ++ timestamp ++ " " ++ logMessage := by rw [hNEdef]
  have hE2NE : E2.raw = NE.raw := by rw [hE2raw, hNEraw]
  have hA : sec.lines.take (sec.startIndex + 1) = A0 ++ [hl0] := by
    rw [hA0def, hhl0def, List.take_succ, getD_eq_getElem_of_lt "" hslen,
      List.getElem?_eq_getElem hslen]
    rfl
  have hsplitmem : ∀ l ∈ sec.lines, '\n' ∉ l.data := by
    rw [hlines]
    exact splitNl_no_newline content
  have hbodysl : List.Sublist (sectionBody sec) sec.lines :=
    (List.drop_sublist _ _).trans (List.take_sublist _ _)
  have hbodysub : ∀ l ∈ sectionBody sec, l ∈ sec.lines := fun l hl => hbodysl.subset hl
  have hscanraw : ∀ x ∈ sectionScan sec,
      x.raw ∈ sectionBody sec ∧ parseLogEntry x.raw = some x := by
    intro x hx
    obtain ⟨l0, hl0mem, hl0parse⟩ := List.mem_filterMap.mp hx
    have hxr := parseLogEntry_raw hl0parse
    constructor
    · rw [hxr]
      exact hl0mem
    · rw [hxr]
      exact hl0parse
  have hRcases : ∀ l ∈ R, (∃ x ∈ sectionScan sec, l = x.raw) ∨ l = NE.raw := by
    intro l hl
    rw [hRdef] at hl
    obtain ⟨x, hx, rfl⟩ := List.mem_map.mp hl
    rcases List.mem_append.mp ((sortEntries_perm _).subset hx) with h | h
    · exact Or.inl ⟨x, h, rfl⟩
    · rw [List.mem_singleton] at h
      subst h
      exact Or.inr rfl
  have hRparse : ∀ l ∈ R, (parseLogEntry l).isSome = true := by
    intro l hl
    rcases hRcases l hl with ⟨x, hx, rfl⟩ | rfl
    · rw [(hscanraw x hx).2]
      rfl
    · rw [hNEraw, hE2parse]
      rfl
  have hmaxNE : ∀ y ∈ sectionScan sec, entryKey y ≤ entryKey NE := by
    intro y hy
    have h1 := hmax y hy
    rw [hNEdef]
    exact h1
  have hsortsplit : sortEntries (sectionScan sec ++ [NE])
      = sortEntries (sectionScan sec) ++ [NE] :=
    sortEntries_append_max hmaxNE
  have hRsplit : R = (sortEntries (sectionScan sec)).map LogEntry.raw ++ [NE.raw] := by
    rw [hRdef, hsortsplit, List.map_append]
    rfl
  have hA0cond : ∀ l ∈ A0, trimJs l ≠ headerText := by
    intro l hl
    rw [hA0def] at hl
    obtain ⟨k, hk1, hk2, hk3⟩ := mem_take_getD sec.lines sec.startIndex l hl
    rw [← hk3]
    exact hfirst k hk1
  have hhl0mem : hl0 ∈ sec.lines := by
    rw [hhl0def, getD_eq_getElem_of_lt "" hslen]
    exact List.getElem_mem _
  have hMfree : ∀ l ∈ (A0 ++ [hl0]) ++ (R ++ N) ++ C, '\n' ∉ l.data := by
    intro l hl
    rcases List.mem_append.mp hl with h1 | hC2
    · rcases List.mem_append.mp h1 with hA1 | hM1
      · rcases List.mem_append.mp hA1 with hA2 | hh
        · rw [hA0def] at hA2
          exact hsplitmem l ((List.take_sublist _ _).subset hA2)
        · rw [List.mem_singleton] at hh
          subst hh
          exact hsplitmem _ hhl0mem
      · rcases List.mem_append.mp hM1 with hR1 | hN1
        · rcases hRcases l hR1 with ⟨x, hx, rfl⟩ | rfl
          · exact hsplitmem _ (hbodysub _ (hscanraw x hx).1)
          · rw [hNEraw]
            exact newEntry_raw_no_newline htok hterm
        · rw [hNdef] at hN1
          exact hsplitmem l (hbodysub l (List.mem_of_mem_filter hN1))
    · rw [hCdef] at hC2
      exact hsplitmem l ((List.drop_sublist _ _).subset hC2)
  have hC01 : C = [] ∨ ∃ c0 C2, C = c0 :: C2 ∧ jsStartsWith c0 "## " := by
    rw [hCdef]
    rcases hend with he1 | ⟨he2, he3⟩
    · left
      rw [he1, List.drop_length]
    · right
      refine ⟨sec.lines.getD sec.endIndex "", sec.lines.drop (sec.endIndex + 1), ?_, he3⟩
      rw [getD_eq_getElem_of_lt "" he2]
      exact List.drop_eq_getElem_cons he2
  have hMno : ∀ l ∈ R ++ N, ¬ jsStartsWith l "## " := by
    intro l hl
    rcases List.mem_append.mp hl with h | h
    · obtain ⟨en, hen⟩ := Option.isSome_iff_exists.mp (hRparse l h)
      intro hc
      rw [parse_not_startsWith hen] at hc
      exact Bool.noConfusion hc
    · rw [hNdef] at h
      obtain ⟨j, hj1, hj2, hj3, hj4⟩ := mem_drop_take_getD sec.lines (sec.startIndex + 1)
        sec.endIndex l (List.mem_of_mem_filter h) helen
      have h5 := hnosec j (by omega) hj2
      rw [hj4] at h5
      exact h5
  obtain ⟨hfind1, hbody1⟩ := findTodaySection_reconstruct headerText A0 (R ++ N) C hl0
    hA0cond hmatch hMno hC01 hMfree
  have hcontent1 : addLogEntry logMessage customTime nowTime content headerText
      = .ok (joinNl ((A0 ++ [hl0]) ++ (R ++ N) ++ C)) := by
    rw [addLogEntry_eq logMessage customTime nowTime content headerText sec timestamp hsec hts]
    rw [hA]
    congr 1
    simp [List.append_assoc]
  set sec1 : TodaySection :=
    ⟨A0.length, A0.length + 1 + (R ++ N).length, (A0 ++ [hl0]) ++ (R ++ N) ++ C⟩ with hsec1def
  have hs1 : sec1.startIndex = A0.length := by rw [hsec1def]
  have he1 : sec1.endIndex = A0.length + 1 + (R ++ N).length := by rw [hsec1def]
  have hl1 : sec1.lines = (A0 ++ [hl0]) ++ (R ++ N) ++ C := by rw [hsec1def]
  have hN0 : N.filterMap parseLogEntry = [] := by
    apply filterMap_parse_of_isNone
    intro l hl
    rw [hNdef] at hl
    exact (List.mem_filter.mp hl).2
  have hscan1 : sectionScan sec1 = sortEntries (sectionScan sec) ++ [E2] := by
    show (sectionBody sec1).filterMap parseLogEntry = _
    rw [hbody1, List.filterMap_append, hN0, List.append_nil, hRsplit,
      List.filterMap_append]
    congr 1
    · exact filterMap_parse_map_raw (sortEntries (sectionScan sec))
        (fun e he => (hscanraw e ((sortEntries_perm _).subset he)).2)
    · rw [hNEraw]
      simp [List.filterMap_cons, hE2parse]
  have hmax2 : ∀ y ∈ sortEntries (sectionScan sec), entryKey y ≤ entryKey E2 := by
    intro y hy
    have h1 := hmax y ((sortEntries_perm _).subset hy)
    show jsTimeMinutes y.time ≤ jsTimeMinutes E2.time
    rw [hE2time]
    exact h1
  have hsorted1 : sortEntries (sectionScan sec1) = sortEntries (sectionScan sec) ++ [E2] := by
    rw [hscan1, sortEntries_append_max hmax2, sortEntries_of_sorted (sortEntries_sorted _)]
  have hne1 : sortEntries (sectionScan sec1) ≠ [] := by
    rw [hsorted1]
    simp
  obtain ⟨j, hj1, hj2, hj3, hj4, hj5⟩ := undoLastEntry_eq
    (joinNl ((A0 ++ [hl0]) ++ (R ++ N) ++ C)) headerText sec1 hfind1 hne1
  have hlast : (sortEntries (sectionScan sec1)).getLast hne1 = E2 := by
    have h1 := List.getLast?_eq_getLast (sortEntries (sectionScan sec1)) hne1
    have h2 : (sortEntries (sectionScan sec1)).getLast? = some E2 := by
      rw [hsorted1]
      exact List.getLast?_concat _
    rw [h1] at h2
    injection h2 with h2
  have hj1' : A0.length + 1 ≤ j := by
    rw [hs1] at hj1
    exact hj1
  have hj2' : j < A0.length + 1 + (R ++ N).length := by
    rw [he1] at hj2
    exact hj2
  set m := j - (A0.length + 1) with hmdef
  have hm : m < (R ++ N).length := by
    rw [hmdef]
    omega
  have hjm : j = (A0 ++ [hl0]).length + m := by
    have hlenA : (A0 ++ [hl0]).length = A0.length + 1 := by simp
    omega
  have hgetm : (R ++ N).getD m "" = E2.raw := by
    have h1 := hj3
    rw [hl1, hlast, hjm, getD_append_middle (A0 ++ [hl0]) (R ++ N) C m hm] at h1
    exact h1
  have herase : sec1.lines.eraseIdx j = (A0 ++ [hl0]) ++ (R ++ N).eraseIdx m ++ C := by
    rw [hl1, hjm, eraseIdx_append_middle (A0 ++ [hl0]) (R ++ N) C m hm]
  have hM2no : ∀ l ∈ (R ++ N).eraseIdx m, ¬ jsStartsWith l "## " :=
    fun l hl => hMno l ((List.eraseIdx_sublist _ _).subset hl)
  have hM2free : ∀ l ∈ (A0 ++ [hl0]) ++ (R ++ N).eraseIdx m ++ C, '\n' ∉ l.data := by
    intro l hl
    apply hMfree l
    rcases List.mem_append.mp hl with h1 | h1
    · rcases List.mem_append.mp h1 with h2 | h2
      · exact List.mem_append.mpr (Or.inl (List.mem_append.mpr (Or.inl h2)))
      · exact List.mem_append.mpr
          (Or.inl (List.mem_append.mpr (Or.inr ((List.eraseIdx_sublist _ _).subset h2))))
    · exact List.mem_append.mpr (Or.inr h1)
  obtain ⟨hfind2, hbody2⟩ := findTodaySection_reconstruct headerText A0
    ((R ++ N).eraseIdx m) C hl0 hA0cond hmatch hM2no hC01 hM2free
  have hundo : undoLastEntry (joinNl ((A0 ++ [hl0]) ++ (R ++ N) ++ C)) headerText
      = .ok (joinNl ((A0 ++ [hl0]) ++ (R ++ N).eraseIdx m ++ C)) := by
    rw [hj5, herase]
  refine ⟨_, _, _, hcontent1, hundo, hfind2, ?_⟩
  have hel2 : entryLinesOf ⟨A0.length, A0.length + 1 + ((R ++ N).eraseIdx m).length,
      (A0 ++ [hl0]) ++ (R ++ N).eraseIdx m ++ C⟩
      = ((R ++ N).eraseIdx m).filter (fun l => (parseLogEntry l).isSome) := by
    unfold entryLinesOf
    rw [hbody2]
  have hfilterM : (R ++ N).filter (fun l => (parseLogEntry l).isSome) = R := by
    rw [List.filter_append, List.filter_eq_self.mpr hRparse]
    have hN00 : N.filter (fun l => (parseLogEntry l).isSome) = [] := by
      rw [List.filter_eq_nil_iff]
      intro a ha
      rw [hNdef] at ha
      have h1 := (List.mem_filter.mp ha).2
      simp [Option.isNone_iff_eq_none.mp h1]
    rw [hN00, List.append_nil]
  have hE2parse2 : parseLogEntry E2.raw = some E2 := parseLogEntry_raw_roundtrip hE2parse
  have hpm : (parseLogEntry ((R ++ N).getD m "")).isSome = true := by
    rw [hgetm, hE2parse2]
    rfl
  have hMsplit : R ++ N = (R ++ N).take m ++ (R ++ N).getD m "" :: (R ++ N).drop (m + 1) := by
    conv_lhs => rw [← List.take_append_drop m (R ++ N)]
    congr 1
    rw [List.drop_eq_getElem_cons hm, getD_eq_getElem_of_lt "" hm]
  have hperm1 : List.Perm ((R ++ N).filter (fun l => (parseLogEntry l).isSome))
      ((R ++ N).getD m ""
        :: ((R ++ N).eraseIdx m).filter (fun l => (parseLogEntry l).isSome)) := by
    conv_lhs => rw [hMsplit]
    rw [List.filter_append, List.filter_cons, if_pos hpm,
      List.eraseIdx_eq_take_drop_succ, List.filter_append]
    exact List.perm_middle
  have hRperm : List.Perm R (E2.raw :: (sortEntries (sectionScan sec)).map LogEntry.raw) := by
    rw [hRsplit, ← hE2NE]
    exact List.perm_append_singleton _ _
  rw [hfilterM, hgetm] at hperm1
  have hcomb := (hRperm.symm).trans hperm1
  have hfinal0 := hcomb.cons_inv
  rw [hel2]
  have h3 : (sectionScan sec).map LogEntry.raw = entryLinesOf sec := by
    unfold sectionScan entryLinesOf
    exact entryLines_map_raw (sectionBody sec)
  have hfin1 : List.Perm ((sortEntries (sectionScan sec)).map LogEntry.raw)
      (entryLinesOf sec) := by
    rw [← h3]
    exact (sortEntries_perm _).map _
  exact (hfinal0.symm).trans hfin1

/-- Witness for C6: inserting `hello` at 9:30 (later than the single existing
9:00 entry) into a section with interleaved prose and undoing removes exactly
the inserted line; the section's entry lines are restored (the prose line has
migrated below them). -/
theorem C6_insert_undo_roundtrip_witness :
    addLogEntry "hello" (some "9:30") "12:00" "## Today\nnote\n- 09:00 a" "## Today"
      = .ok "## Today\n- 09:00 a\n- 09:30 hello\nnote" ∧
    undoLastEntry "## Today\n- 09:00 a\n- 09:30 hello\nnote" "## Today"
      = .ok "## Today\n- 09:00 a\nnote" ∧
    List.Perm (entryLinesOf ⟨0, 3, ["## Today", "- 09:00 a", "note"]⟩)
      (entryLinesOf ⟨0, 3, ["## Today", "note", "- 09:00 a"]⟩) := by
  obtain ⟨c1, c2, s2, h1, h2, h3, h4⟩ := C6_insert_undo_roundtrip "hello" (some "9:30")
    "12:00" "## Today\nnote\n- 09:00 a" "## Today"
    ⟨0, 3, ["## Today", "note", "- 09:00 a"]⟩ "09:30"
    (by decide) (by decide) (by decide) (by decide) (by decide) (by decide)
  have hc1 : addLogEntry "hello" (some "9:30") "12:00" "## Today\nnote\n- 09:00 a" "## Today"
      = .ok "## Today\n- 09:00 a\n- 09:30 hello\nnote" := by decide
  have hc1' := hc1
  rw [h1] at hc1'
  injection hc1' with hc1'
  subst hc1'
  have hc2 : undoLastEntry "## Today\n- 09:00 a\n- 09:30 hello\nnote" "## Today"
      = .ok "## Today\n- 09:00 a\nnote" := by decide
  have hc2' := hc2
  rw [h2] at hc2'
  injection hc2' with hc2'
  subst hc2'
  have hc3 : findTodaySection "## Today\n- 09:00 a\nnote" "## Today"
      = .ok ⟨0, 3, ["## Today", "- 09:00 a", "note"]⟩ := by decide
  have hc3' := hc3
  rw [h3] at hc3'
  injection hc3' with hc3'
  subst hc3'
  exact ⟨hc1, hc2, h4⟩

end TwoLog
